import Mathlib

/-!
Verification development for the search & highlight engine of
`pdf-search-highlight` (src/core/SearchEngine.ts, src/core/HighlightManager.ts,
src/core/SearchController.ts, src/core/PDFSearchViewer.ts).

Text is modelled as `List Char` (one entry per UTF-16-ish code point, matching
the JS spread/`[...]` iteration used by the source).  DOM state is modelled
purely: each text-layer span carries, besides its immutable `text`, an `el`
field holding its current visual projection as a list of segments (plain text
nodes and `mark` elements).  Mark elements are identified by their page, span
and character offsets, which is a faithful model of DOM node identity because
a single highlight application never creates two marks at the same offsets.
-/

namespace PSH

/-- The JS `\s` character class (whitespace as used by `String.trim`,
`split(/\s+/)`, the `\s` atoms of the compiled patterns and the
`replace(/\s+/g, '')` stripping in fuzzy search). -/
def isWs (c : Char) : Bool :=
  c.toNat = 32 || c.toNat = 9 || c.toNat = 10 || c.toNat = 13 ||
  c.toNat = 11 || c.toNat = 12 ||
  c.toNat = 0xa0 || c.toNat = 0x1680 ||
  (0x2000 ≤ c.toNat && c.toNat ≤ 0x200a) ||
  c.toNat = 0x2028 || c.toNat = 0x2029 || c.toNat = 0x202f ||
  c.toNat = 0x205f || c.toNat = 0x3000 || c.toNat = 0xfeff

/-- JS `String.prototype.trim`: strip leading and trailing whitespace. -/
def jsTrim (l : List Char) : List Char :=
  ((l.dropWhile (isWs ·)).reverse.dropWhile (isWs ·)).reverse

/-- Case folding used to model the `i` regex flag and `toLowerCase()`. -/
def foldEq (caseSensitive : Bool) (a b : Char) : Bool :=
  if caseSensitive then a = b else a.toLower = b.toLower

/-- The canonical form a character is compared under: itself when case
sensitive, its lower-case form otherwise. -/
def foldC (caseSensitive : Bool) (c : Char) : Char :=
  if caseSensitive then c else c.toLower

/-- JS `trimmed.split(/\s+/)` on an already trimmed string: the list of
maximal whitespace-free tokens. -/
def splitWs (l : List Char) : List (List Char) :=
  match h : l.dropWhile (isWs ·) with
  | [] => []
  | c :: rest =>
    (c :: rest.takeWhile (fun c => ! isWs c)) ::
      splitWs (rest.dropWhile (fun c => ! isWs c))
termination_by l.length
decreasing_by
  have h1 : (l.dropWhile (isWs ·)).length ≤ l.length :=
    (List.dropWhile_sublist _).length_le
  have h2 : (rest.dropWhile (fun c => ! isWs c)).length ≤ rest.length :=
    (List.dropWhile_sublist _).length_le
  have h3 : (c :: rest).length ≤ l.length := h ▸ h1
  simp only [List.length_cons] at h3
  omega

/-! ### SearchEngine.ts : data model -/

/-- `CharMapEntry` from SearchEngine.ts. -/
structure CharMapEntry where
  spanIdx : Nat
  charIdx : Nat
deriving DecidableEq

/-- `MatchRange` from SearchEngine.ts (`end` is a Lean keyword, renamed `stop`). -/
structure MatchRange where
  spanIdx : Nat
  start : Nat
  stop : Nat
deriving DecidableEq

/-- One `<mark>` element created by the highlighter, identified by its page,
span and character offsets (a faithful stand-in for DOM node identity). -/
structure Mark where
  page : Nat
  span : Nat
  start : Nat
  stop : Nat
  cls : String
  content : List Char
deriving DecidableEq

/-- A node of a span's visual projection: a plain text node or a mark. -/
inductive Seg where
  | txt (s : List Char)
  | mark (m : Mark)
deriving DecidableEq

/-- The rendered text of one segment. -/
def Seg.render : Seg → List Char
  | .txt s => s
  | .mark m => m.content

/-- The visual projection of a span: concatenation of its segments' text. -/
def renderEl (el : List Seg) : List Char := (el.map Seg.render).flatten

/-- `SpanData` from types/results.ts; `el` is the DOM element's current
content, initially the literal text. -/
structure SpanData where
  text : List Char
  hasEOL : Bool := false
  el : List Seg := [Seg.txt text]
deriving DecidableEq

/-- `SearchOptions` from types/options.ts; absent fields are `none` and the
`??`-defaults of the source are applied at use sites.  `fuzzyThreshold` is a
rational, modelling the JS number. -/
structure SearchOptions where
  caseSensitive : Option Bool := none
  flexibleWhitespace : Option Bool := none
  fuzzy : Option Bool := none
  fuzzyThreshold : Option ℚ := none
deriving DecidableEq

/-! ### SearchEngine.ts : text projection -/

/-- `buildTextAndCharMap`: concatenated buffer plus one map entry per char. -/
def buildTextAndCharMap (spans : List SpanData) : List Char × List CharMapEntry :=
  ((spans.map (·.text)).flatten,
   (spans.enum.map (fun p =>
     (List.range p.2.text.length).map (fun ci => (⟨p.1, ci⟩ : CharMapEntry)))).flatten)

/-- `mapToSpanRanges`: walk `charMap[start..stop)`, merging consecutive
offsets that continue the same span into one `MatchRange` (the source mutates
the last pushed range; here the accumulator is kept reversed). -/
def mapToSpanRanges (start stop : Nat) (charMap : List CharMapEntry) : List MatchRange :=
  (((charMap.take stop).drop start).foldl
    (fun acc cm =>
      match acc with
      | last :: rest =>
        if last.spanIdx = cm.spanIdx ∧ last.stop = cm.charIdx then
          { last with stop := cm.charIdx + 1 } :: rest
        else
          ⟨cm.spanIdx, cm.charIdx, cm.charIdx + 1⟩ :: last :: rest
      | [] => [⟨cm.spanIdx, cm.charIdx, cm.charIdx + 1⟩])
    []).reverse

/-! ### SearchEngine.ts : pattern compiler (`buildFlexibleRegex`)

The source compiles the query to a JS regex of one of three literal shapes;
`escapeRegex` makes every query character a literal atom, so the compiled
pattern is fully described by the shape plus the character lists, and its
backtracking behaviour is deterministic (every pattern character is
non-whitespace in the `perChar`/`tokens` shapes, so the greedy `\s*`/`\s+`
gaps can never be shortened by backtracking). -/

/-- The three shapes of pattern `buildFlexibleRegex` can produce. -/
inductive FlexPattern where
  | lit (chars : List Char)
  | perChar (chars : List Char)
  | toks (tokens : List (List Char))
deriving DecidableEq

/-- A compiled pattern: shape plus the case-sensitivity flag (`g` vs `gi`). -/
structure CompiledRegex where
  pat : FlexPattern
  caseSensitive : Bool
deriving DecidableEq

/-- `buildFlexibleRegex` from SearchEngine.ts. -/
def buildFlexibleRegex (query : List Char) (options : SearchOptions) :
    Option CompiledRegex :=
  let trimmed := jsTrim query
  if trimmed = [] then none
  else
    let isCaseSensitive := options.caseSensitive.getD false
    let flexibleWhitespace := options.flexibleWhitespace.getD true
    if !flexibleWhitespace then some ⟨.lit trimmed, isCaseSensitive⟩
    else
      let chars := trimmed.filter (fun c => ! isWs c)
      if chars = [] then none
      else if chars.length > 200 then some ⟨.toks (splitWs trimmed), isCaseSensitive⟩
      else some ⟨.perChar chars, isCaseSensitive⟩

/-- Length of the leading whitespace run (what a greedy `\s*` consumes when
the following pattern atom is non-whitespace). -/
def wsRunLen (t : List Char) : Nat := (t.takeWhile (isWs ·)).length

/-- Match a literal pattern at the head of `t`; returns the consumed length. -/
def litMatchLen (cs : Bool) : List Char → List Char → Option Nat
  | [], _ => some 0
  | _ :: _, [] => none
  | p :: ps, c :: ts =>
    if foldEq cs c p then (litMatchLen cs ps ts).map (· + 1) else none

/-- Match `c₁\s*c₂\s*…\s*cₖ` at the head of `t`.  Each `cᵢ` is
non-whitespace, so the greedy `\s*` consumes exactly the whitespace run. -/
def perCharMatchLen (cs : Bool) : List Char → List Char → Option Nat
  | [], _ => some 0
  | _ :: _, [] => none
  | p :: ps, c :: ts =>
    if foldEq cs c p then
      match ps with
      | [] => some 1
      | _ :: _ =>
        let w := wsRunLen ts
        (perCharMatchLen cs ps (ts.drop w)).map (fun k => 1 + w + k)
    else none

/-- Match `tok₁\s+tok₂\s+…\s+tokₖ` at the head of `t` (the long-query
fallback); tokens are non-empty and whitespace-free, so `\s+` consumes
exactly the (non-empty) whitespace run. -/
def toksMatchLen (cs : Bool) : List (List Char) → List Char → Option Nat
  | [], _ => some 0
  | tok :: toks, t =>
    match litMatchLen cs tok t with
    | none => none
    | some k =>
      match toks with
      | [] => some k
      | _ :: _ =>
        let rest := t.drop k
        let w := wsRunLen rest
        if w = 0 then none
        else (toksMatchLen cs toks (rest.drop w)).map (fun k2 => k + w + k2)

/-- Attempt a match of the compiled pattern at the head of `t`. -/
def execLenAt (re : CompiledRegex) (t : List Char) : Option Nat :=
  match re.pat with
  | .lit p => litMatchLen re.caseSensitive p t
  | .perChar p => perCharMatchLen re.caseSensitive p t
  | .toks toks => toksMatchLen re.caseSensitive toks t

/-- The `while ((m = regex.exec(fullText)))` scan of `searchPage` with an
explicit step budget (structural recursion, so that concrete runs reduce):
find the leftmost match at or after `pos`, record `[start, stop)`, resume
after it (advancing one extra position on a zero-length match). -/
def findAllGo (re : CompiledRegex) (t : List Char) : Nat → Nat → List (Nat × Nat)
  | 0, _ => []
  | fuel + 1, pos =>
    if pos < t.length then
      match execLenAt re (t.drop pos) with
      | some k => (pos, pos + k) :: findAllGo re t fuel (pos + k + (if k = 0 then 1 else 0))
      | none => findAllGo re t fuel (pos + 1)
    else []

/-- The regex scan from `pos`; the budget `t.length + 1` covers the loop
(every iteration advances `pos` by at least one, and the loop stops once
`pos` reaches the end). -/
def findAllFrom (re : CompiledRegex) (t : List Char) (pos : Nat) : List (Nat × Nat) :=
  findAllGo re t (t.length + 1 - pos) pos

/-! ### SearchEngine.ts : approximate matcher (`fuzzySearchText`)

The source keeps one DP column per text position (`columns[i][j]` = minimum
edits aligning the first `j` query chars with a substring ending at text
position `i`; first row free).  Columns are lists of `Nat` here; comparisons
against `maxErrors` are over `Int` because `maxErrors` can be negative when
`fuzzyThreshold > 1`. -/

/-- `start`/`end`/`distance` of a raw fuzzy match (`end` renamed `stop`). -/
structure FuzzyMatch where
  start : Nat
  stop : Nat
  distance : Nat
deriving DecidableEq

/-- The inner loop of the DP column update: given the text char `tc`, the
remaining query chars, the previous column from entry `j-1` on, and the value
just computed for the current column at `j-1`, produce the entries `j, j+1, …`
of the current column. -/
def fuzzRowAux (tc : Char) : List Char → List Nat → Nat → List Nat
  | qc :: qs, pjm1 :: pj :: prest, left =>
    let cost := if tc = qc then 0 else 1
    let v := min (pj + 1) (min (left + 1) (pjm1 + cost))
    v :: fuzzRowAux tc qs (pj :: prest) v
  | _, _, _ => []

/-- One DP column step: `curr[0] = 0` (semi-global free start), then the
min-of-three recurrence of the source. -/
def nextCol (tc : Char) (q : List Char) (prev : List Nat) : List Nat :=
  0 :: fuzzRowAux tc q prev 0

/-- The initial DP column `[0, 1, …, m]`. -/
def colInit (m : Nat) : List Nat := List.range (m + 1)

/-- All DP columns after the initial one, one per text character. -/
def fuzzColsGo (q : List Char) : List Char → List Nat → List (List Nat)
  | [], _ => []
  | tc :: ts, prev =>
    let c := nextCol tc q prev
    c :: fuzzColsGo q ts c

/-- The full stored DP matrix (`columns` in the source): `cols[i]` is the
column for text position `i`, `0 ≤ i ≤ text.length`. -/
def fuzzCols (q t : List Char) : List (List Nat) :=
  colInit q.length :: fuzzColsGo q t (colInit q.length)

/-- The traceback loop of `fuzzySearchText`: from cell `(i, j)` follow
whichever recurrence produced the stored value (diagonal preferred, then
deletion-from-text, else insertion) until a dimension reaches 0; the final
text index is the match start. -/
def tracebackGo (t q : List Char) (cols : List (List Nat)) :
    Nat → Nat → Nat → Nat
  | 0, i, _ => i
  | fuel + 1, i, j =>
    if 0 < i ∧ 0 < j then
      let c := cols.getD i []
      let p := cols.getD (i - 1) []
      let cost := if t.getD (i - 1) (Char.ofNat 0) = q.getD (j - 1) (Char.ofNat 0) then 0 else 1
      if c.getD j 0 = p.getD (j - 1) 0 + cost then tracebackGo t q cols fuel (i - 1) (j - 1)
      else if c.getD j 0 = p.getD j 0 + 1 then tracebackGo t q cols fuel (i - 1) j
      else tracebackGo t q cols fuel i (j - 1)
    else i

/-- The traceback from cell `(i, j)`; every step decreases `i + j` by at
least one, so a budget of `i + j` suffices. -/
def traceback (t q : List Char) (cols : List (List Nat)) (i j : Nat) : Nat :=
  tracebackGo t q cols (i + j) i j

/-- The JS sort comparator `(a, b) => a.start - b.start || a.distance - b.distance`
as a `≤` relation (the source's `Array.prototype.sort` is stable, as is
`List.insertionSort` which models it). -/
def fuzzyLe (a b : FuzzyMatch) : Prop :=
  a.start < b.start ∨ (a.start = b.start ∧ a.distance ≤ b.distance)

instance : DecidableRel fuzzyLe := fun a b => by
  unfold fuzzyLe; infer_instance

/-- The overlap-merge loop of `fuzzySearchText`: walking the sorted raw
matches, an incoming match overlapping the last kept one replaces it only
when its distance is strictly lower (first-seen wins on ties); otherwise it
is appended. -/
def mergeOvAux : FuzzyMatch → List FuzzyMatch → List FuzzyMatch
  | a, [] => [a]
  | a, b :: l =>
    if b.start < a.stop then
      if b.distance < a.distance then mergeOvAux b l else mergeOvAux a l
    else a :: mergeOvAux b l

/-- The overlap-merge over the whole sorted candidate list (`merged` starts
as `[rawMatches[0]]`). -/
def mergeOv : List FuzzyMatch → List FuzzyMatch
  | [] => []
  | a :: l => mergeOvAux a l

/-- `fuzzySearchText` from SearchEngine.ts: collect candidate match ends
where the final DP row is within budget, trace each back to its start, sort
by `(start, distance)` and merge overlaps. -/
def fuzzySearchText (text query : List Char) (maxErrors : Int) : List FuzzyMatch :=
  let n := text.length
  let m := query.length
  if m = 0 then []
  else if n = 0 then []
  else
    let cols := fuzzCols query text
    let ends := (List.range n).filterMap (fun i0 =>
      let i := i0 + 1
      let d := (cols.getD i []).getD m 0
      if (d : Int) ≤ maxErrors then some (i, d) else none)
    if ends = [] then []
    else
      let raw := ends.map (fun (e, d) =>
        ({ start := traceback text query cols e m, stop := e, distance := d } : FuzzyMatch))
      mergeOv (List.insertionSort fuzzyLe raw)

/-- `fuzzySearchPage` from SearchEngine.ts: case-fold the unstripped page
buffer and the query, strip whitespace from the query only, compute
`maxErrors = floor(len * (1 - threshold))`, run the matcher over the
unstripped buffer and map the offsets straight through the char map. -/
def fuzzySearchPage (spans : List SpanData) (query : List Char)
    (options : SearchOptions) : List (List MatchRange) :=
  let fullText := (buildTextAndCharMap spans).1
  let charMap := (buildTextAndCharMap spans).2
  if fullText = [] then []
  else
    let isCaseSensitive := options.caseSensitive.getD false
    let threshold := options.fuzzyThreshold.getD (6 / 10 : ℚ)
    let searchText := if isCaseSensitive then fullText else fullText.map Char.toLower
    let searchQuery := if isCaseSensitive then query else query.map Char.toLower
    let strippedQuery := searchQuery.filter (fun c => ! isWs c)
    if strippedQuery = [] then []
    else
      let maxErrors : Int := ⌊(strippedQuery.length : ℚ) * (1 - threshold)⌋
      (fuzzySearchText searchText strippedQuery maxErrors).map
        (fun m => mapToSpanRanges m.start m.stop charMap)

/-- `searchPage` from SearchEngine.ts. -/
def searchPage (spans : List SpanData) (query : List Char)
    (options : SearchOptions) : List (List MatchRange) :=
  let trimmed := jsTrim query
  if trimmed = [] then []
  else if options.fuzzy.getD false then fuzzySearchPage spans trimmed options
  else
    match buildFlexibleRegex query options with
    | none => []
    | some re =>
      let fullText := (buildTextAndCharMap spans).1
      let charMap := (buildTextAndCharMap spans).2
      (findAllFrom re fullText 0).map (fun r => mapToSpanRanges r.1 r.2 charMap)

/-! ### HighlightManager.ts

State: the global match list, the active index (`currentMatch`, `-1` when
none) and — modelling the `active` CSS class sitting on mark elements — the
set of currently active marks.  `clearHighlights` discards every mark element
(restoring `el.textContent = s.text`), which in this model also empties
`activeMarks`. -/

/-- `SearchMatch` from types/results.ts: the mark elements of one match. -/
structure SearchMatch where
  marks : List Mark
deriving DecidableEq

/-- The mutable fields of `HighlightManager`. -/
structure HMState where
  matchList : List SearchMatch := []
  currentMatch : Int := -1
  activeMarks : List Mark := []
deriving DecidableEq

/-- The default highlight class (`DEFAULT_CLASS_NAMES.highlight`). -/
def defaultHighlightCls : String := "highlight"

/-- The default active-highlight class (`DEFAULT_CLASS_NAMES.activeHighlight`). -/
def defaultActiveCls : String := "active"

/-- JS `s.text.slice(a, b)`. -/
def sliceStr (s : List Char) (a b : Nat) : List Char := (s.take b).drop a

/-- An entry of the `spanRanges` grouping in `applyHighlights`
(`{ start, end, matchIdx }`; `end` renamed `stop`). -/
structure HLEntry where
  start : Nat
  stop : Nat
  matchIdx : Nat
deriving DecidableEq

/-- The entries `applyHighlights` groups under span `si`, in push order
(match index ascending, then the order of the ranges inside one match). -/
def spanEntries (matchRanges : List (List MatchRange)) (si : Nat) : List HLEntry :=
  (matchRanges.enum.map (fun p =>
    (p.2.filter (fun r => r.spanIdx = si)).map
      (fun r => (⟨r.start, r.stop, p.1⟩ : HLEntry)))).flatten

/-- The grouped entries after the stable `.sort((a, b) => a.start - b.start)`. -/
def sortedEntries (matchRanges : List (List MatchRange)) (si : Nat) : List HLEntry :=
  List.insertionSort (fun a b => a.start ≤ b.start) (spanEntries matchRanges si)

/-- The per-span DOM rebuild of `applyHighlights`: alternating plain text and
mark segments, clamping overlapping ranges (`actualStart = max(start, last)`)
and collecting `(matchIdx, mark)` pairs in creation order. -/
def buildSpanFrag (pageIdx si : Nat) (s : SpanData) (ranges : List HLEntry)
    (classes : List String) (hlCls : String) : List Seg × List (Nat × Mark) :=
  let step := fun (acc : List Seg × List (Nat × Mark) × Nat) (r : HLEntry) =>
    let frag := acc.1
    let marks := acc.2.1
    let last := acc.2.2
    let actualStart := max r.start last
    let frag := if last < actualStart then frag ++ [Seg.txt (sliceStr s.text last actualStart)] else frag
    let next :=
      if actualStart < r.stop then
        let mk : Mark :=
          ⟨pageIdx, si, actualStart, r.stop, classes.getD r.matchIdx hlCls,
           sliceStr s.text actualStart r.stop⟩
        (frag ++ [Seg.mark mk], marks ++ [(r.matchIdx, mk)])
      else (frag, marks)
    (next.1, next.2, max last r.stop)
  let res := ranges.foldl step ([], [], 0)
  let frag := if res.2.2 < s.text.length then res.1 ++ [Seg.txt (s.text.drop res.2.2)] else res.1
  (frag, res.2.1)

/-- `HighlightManager.applyHighlights`.  The version shipped under src takes
`(pageSpans, matchRanges)` and gives every mark `this.highlightClass`; its
caller `PDFSearchViewer.searchMultiple` passes a third per-match class array,
so the class resolution (`classes[matchIdx]`, falling back to the manager's
highlight class) is modelled from the spec ("marked segments carry a
reference back to their owning Match", "tags every resulting Match").
`pageIdx` models DOM node identity across pages.  Returns the updated spans
and the mark groups (`matchMarks.filter(len > 0).map(marks => ({ marks }))`). -/
def applyHighlights (pageIdx : Nat) (pageSpans : List SpanData)
    (matchRanges : List (List MatchRange)) (classes : List String)
    (hlCls : String) : List SpanData × List SearchMatch :=
  if matchRanges = [] then (pageSpans, [])
  else
    let results := pageSpans.enum.map (fun p =>
      if sortedEntries matchRanges p.1 = [] then (p.2, ([] : List (Nat × Mark)))
      else
        (({ p.2 with el := (buildSpanFrag pageIdx p.1 p.2 (sortedEntries matchRanges p.1) classes hlCls).1 } : SpanData),
         (buildSpanFrag pageIdx p.1 p.2 (sortedEntries matchRanges p.1) classes hlCls).2))
    let tagged := (results.map (·.2)).flatten
    let matchMarks := (List.range matchRanges.length).map
      (fun mi => (tagged.filter (fun p => p.1 = mi)).map (·.2))
    (results.map (·.1),
     (matchMarks.filter (fun ms => ms ≠ [])).map (fun ms => (⟨ms⟩ : SearchMatch)))

/-- Restore one span's projection to its literal text. -/
def resetSpan (s : SpanData) : SpanData := { s with el := [Seg.txt s.text] }

/-- `HighlightManager.clearHighlights`: restore every span of every page and
reset the match state (mark elements are destroyed, clearing active flags). -/
def clearHighlights (pages : List (List SpanData)) :
    List (List SpanData) × HMState :=
  (pages.map (fun pg => pg.map resetSpan),
   { matchList := [], currentMatch := -1, activeMarks := [] })

/-- `HighlightManager.addMatches`. -/
def addMatches (hm : HMState) (newMatches : List SearchMatch) : HMState :=
  { hm with matchList := hm.matchList ++ newMatches }

/-- `HighlightManager.setActiveMatch`: remove the active class from the
previous match's marks (when the previous index is in range), store the new
index unconditionally, and add the active class to the new match's marks
(when the new index is in range; scrolling is a rendering effect). -/
def setActiveMatch (hm : HMState) (index : Int) : HMState :=
  let act1 :=
    if 0 ≤ hm.currentMatch ∧ hm.currentMatch < (hm.matchList.length : Int) then
      let prevMarks := (hm.matchList.getD hm.currentMatch.toNat ⟨[]⟩).marks
      hm.activeMarks.filter (fun m => ! prevMarks.contains m)
    else hm.activeMarks
  let hm1 : HMState := { hm with currentMatch := index, activeMarks := act1 }
  if 0 ≤ index ∧ index < (hm1.matchList.length : Int) then
    { hm1 with
      activeMarks := act1 ++ ((hm1.matchList.getD index.toNat ⟨[]⟩).marks.filter
        (fun m => ! act1.contains m)) }
  else hm1

/-- `HighlightManager.next` (JS `%` is truncated division remainder). -/
def hmNext (hm : HMState) : Int × HMState :=
  if hm.matchList.length = 0 then (-1, hm)
  else
    let newIdx := (hm.currentMatch + 1).tmod (hm.matchList.length : Int)
    (newIdx, setActiveMatch hm newIdx)

/-- `HighlightManager.prev`. -/
def hmPrev (hm : HMState) : Int × HMState :=
  if hm.matchList.length = 0 then (-1, hm)
  else
    let newIdx := (hm.currentMatch - 1 + (hm.matchList.length : Int)).tmod (hm.matchList.length : Int)
    (newIdx, setActiveMatch hm newIdx)

/-! ### SearchController.ts -/

/-- The state of a `SearchController` (the `onChange` notification carries a
projection of this state and is not modelled separately). -/
structure SC where
  pages : List (List SpanData) := []
  hm : HMState := {}
  lastQuery : List Char := []
deriving DecidableEq

/-- The per-page loop shared by `SearchController.search` and
`PDFSearchViewer.search`: search each page, apply highlights, accumulate. -/
def searchPagesLoop (trimmed : List Char) (opts : SearchOptions)
    (pages : List (List SpanData)) (hm : HMState) :
    List (List SpanData) × HMState :=
  pages.enum.foldl
    (fun acc (pd : Nat × List SpanData) =>
      let mrs := searchPage pd.2 trimmed opts
      let applied := applyHighlights pd.1 pd.2 mrs [] defaultHighlightCls
      (acc.1 ++ [applied.1], addMatches acc.2 applied.2))
    ([], hm)

/-- `SearchController.search`. -/
def SC.search (q : List Char) (opts : SearchOptions) (sc : SC) : Nat × SC :=
  let cleared := clearHighlights sc.pages
  let sc := { sc with pages := cleared.1, hm := cleared.2, lastQuery := q }
  let trimmed := jsTrim q
  if trimmed = [] then (0, sc)
  else
    let looped := searchPagesLoop trimmed opts sc.pages sc.hm
    let sc := { sc with pages := looped.1, hm := looped.2 }
    let total := sc.hm.matchList.length
    if 0 < total then (total, { sc with hm := setActiveMatch sc.hm 0 })
    else (total, sc)

/-- `SearchController.goTo`. -/
def SC.goTo (index : Int) (sc : SC) : SC :=
  { sc with hm := setActiveMatch sc.hm index }

/-- `SearchController.next`. -/
def SC.next (sc : SC) : Int × SC :=
  let r := hmNext sc.hm
  (r.1, { sc with hm := r.2 })

/-- `SearchController.prev`. -/
def SC.prev (sc : SC) : Int × SC :=
  let r := hmPrev sc.hm
  (r.1, { sc with hm := r.2 })

/-- `SearchController.clear`. -/
def SC.clear (sc : SC) : SC :=
  let cleared := clearHighlights sc.pages
  { sc with pages := cleared.1, hm := cleared.2, lastQuery := [] }

/-- `SearchController.setPages`: `this.clear(); this.pages = pages;`. -/
def SC.setPages (pages : List (List SpanData)) (sc : SC) : SC :=
  { sc.clear with pages := pages }

/-! ### PDFSearchViewer.ts

The renderer is an external collaborator: `loadPDF`/`setScale` take the page
data it would produce as an argument.  Operations guarded by the `destroyed`
flag return `Except.error`, modelling the thrown `Error`. -/

/-- `SearchContext` from types/results.ts. -/
structure SearchContext where
  query : List Char
  options : Option SearchOptions := none
deriving DecidableEq

/-- Modelled from the spec: the constant `MULTI_CONTEXT_COLOR_COUNT` is
imported by PDFSearchViewer.ts but missing from the constants module under
src; the spec fixes the tag to `index mod 8`. -/
def MULTI_CONTEXT_COLOR_COUNT : Nat := 8

/-- Object-spread merge `{ ...sharedOptions, ...ctx.options }`: fields
present on the override win. -/
def mergeOpts (shared : SearchOptions) (ov : Option SearchOptions) : SearchOptions :=
  match ov with
  | none => shared
  | some o =>
    { caseSensitive := o.caseSensitive <|> shared.caseSensitive,
      flexibleWhitespace := o.flexibleWhitespace <|> shared.flexibleWhitespace,
      fuzzy := o.fuzzy <|> shared.fuzzy,
      fuzzyThreshold := o.fuzzyThreshold <|> shared.fuzzyThreshold }

/-- The state of a `PDFSearchViewer`. -/
structure Viewer where
  destroyed : Bool := false
  pageData : List (List SpanData) := []
  hm : HMState := {}
  lastQuery : List Char := []
  lastSearchOptions : SearchOptions := {}
  lastContexts : List SearchContext := []
  lastIsMultiContext : Bool := false
deriving DecidableEq

/-- The error message thrown by the destroyed-state guards. -/
def destroyedMsg : String := "PDFSearchViewer has been destroyed"

/-- The body of `PDFSearchViewer.search` after the destroyed guard. -/
def searchCore (q : List Char) (opts : SearchOptions) (v : Viewer) : Nat × Viewer :=
  let cleared := clearHighlights v.pageData
  let v := { v with pageData := cleared.1, hm := cleared.2, lastQuery := q,
                    lastSearchOptions := opts, lastIsMultiContext := false,
                    lastContexts := [] }
  let trimmed := jsTrim q
  if trimmed = [] then (0, v)
  else
    let looped := searchPagesLoop trimmed opts v.pageData v.hm
    let v := { v with pageData := looped.1, hm := looped.2 }
    let total := v.hm.matchList.length
    if 0 < total then (total, { v with hm := setActiveMatch v.hm 0 })
    else (total, v)

/-- `PDFSearchViewer.search`. -/
def PV.search (q : List Char) (opts : SearchOptions) (v : Viewer) :
    Except String (Nat × Viewer) :=
  if v.destroyed then .error destroyedMsg else .ok (searchCore q opts v)

/-- One page of `searchMultiple`: run every valid context over the page,
tagging each match with its class string and context index. -/
def multiPageCollect (valid : List SearchContext) (shared : SearchOptions)
    (pd : List SpanData) : List (List MatchRange × String × Nat) :=
  (valid.enum.map (fun p =>
    (searchPage pd (jsTrim p.2.query) (mergeOpts shared p.2.options)).map
      (fun mr => (mr, "highlight-" ++ toString (p.1 % MULTI_CONTEXT_COLOR_COUNT), p.1)))).flatten

/-- The `indices.sort` comparator of `searchMultiple` as a `≤` relation:
compare the `(spanIdx, start)` of each match's first range; a match with an
empty range compares equal to everything. -/
def multiLe (a b : List MatchRange × String × Nat) : Prop :=
  match a.1.head?, b.1.head? with
  | some af, some bf =>
    af.spanIdx < bf.spanIdx ∨ (af.spanIdx = bf.spanIdx ∧ af.start ≤ bf.start)
  | _, _ => True

instance : DecidableRel multiLe := fun a b => by
  unfold multiLe
  cases a.1.head? <;> cases b.1.head? <;> dsimp only <;> infer_instance

/-- One page of `searchMultiple` after collection: the stable sort into
document position order. -/
def multiPageSorted (valid : List SearchContext) (shared : SearchOptions)
    (pd : List SpanData) : List (List MatchRange × String × Nat) :=
  List.insertionSort multiLe (multiPageCollect valid shared pd)

/-- The body of `PDFSearchViewer.searchMultiple` after the destroyed guard. -/
def searchMultipleCore (contexts : List SearchContext) (shared : SearchOptions)
    (v : Viewer) : Nat × Viewer :=
  let cleared := clearHighlights v.pageData
  let v := { v with pageData := cleared.1, hm := cleared.2,
                    lastContexts := contexts, lastIsMultiContext := true,
                    lastQuery := [], lastSearchOptions := shared }
  let valid := contexts.filter (fun c => jsTrim c.query ≠ [])
  if valid = [] then (0, v)
  else
    let looped := v.pageData.enum.foldl
      (fun acc (pd : Nat × List SpanData) =>
        let sorted := multiPageSorted valid shared pd.2
        let applied := applyHighlights pd.1 pd.2 (sorted.map (·.1))
          (sorted.map (fun tr => tr.2.1)) defaultHighlightCls
        (acc.1 ++ [applied.1], addMatches acc.2 applied.2))
      (([] : List (List SpanData)), v.hm)
    let v := { v with pageData := looped.1, hm := looped.2 }
    let total := v.hm.matchList.length
    if 0 < total then (total, { v with hm := setActiveMatch v.hm 0 })
    else (total, v)

/-- `PDFSearchViewer.searchMultiple`. -/
def PV.searchMultiple (contexts : List SearchContext) (shared : SearchOptions)
    (v : Viewer) : Except String (Nat × Viewer) :=
  if v.destroyed then .error destroyedMsg
  else .ok (searchMultipleCore contexts shared v)

/-- `PDFSearchViewer.nextMatch` (no destroyed guard in the source). -/
def PV.nextMatch (v : Viewer) : Except String (Int × Viewer) :=
  let r := hmNext v.hm
  .ok (r.1, { v with hm := r.2 })

/-- `PDFSearchViewer.prevMatch` (no destroyed guard in the source). -/
def PV.prevMatch (v : Viewer) : Except String (Int × Viewer) :=
  let r := hmPrev v.hm
  .ok (r.1, { v with hm := r.2 })

/-- `PDFSearchViewer.clearSearch` (no destroyed guard in the source). -/
def PV.clearSearch (v : Viewer) : Except String Viewer :=
  let cleared := clearHighlights v.pageData
  .ok { v with pageData := cleared.1, hm := cleared.2, lastQuery := [],
               lastContexts := [], lastIsMultiContext := false }

/-- `PDFSearchViewer.loadPDF`: guarded; the rendering collaborator supplies
the new page data. -/
def PV.loadPDF (newPages : List (List SpanData)) (v : Viewer) :
    Except String Viewer :=
  if v.destroyed then .error destroyedMsg
  else .ok { v with pageData := newPages }

/-- `PDFSearchViewer.download`: guarded; the export itself is external. -/
def PV.download (v : Viewer) : Except String Viewer :=
  if v.destroyed then .error destroyedMsg else .ok v

/-- `PDFSearchViewer.rerender` (private): clear highlights, install the
re-rendered page data, and replay the remembered search if any. -/
def PV.rerenderWith (newPages : List (List SpanData)) (v : Viewer) : Viewer :=
  let cleared := clearHighlights v.pageData
  let v := { v with pageData := newPages, hm := cleared.2 }
  if v.lastIsMultiContext ∧ v.lastContexts ≠ [] then
    (searchMultipleCore v.lastContexts v.lastSearchOptions v).2
  else if jsTrim v.lastQuery ≠ [] then
    (searchCore v.lastQuery v.lastSearchOptions v).2
  else v

/-- `PDFSearchViewer.setScale`: guarded, then re-render and replay. -/
def PV.setScale (newPages : List (List SpanData)) (v : Viewer) :
    Except String Viewer :=
  if v.destroyed then .error destroyedMsg
  else .ok (PV.rerenderWith newPages v)

/-- `PDFSearchViewer.destroy`. -/
def PV.destroy (v : Viewer) : Viewer :=
  if v.destroyed then v
  else
    let cleared := clearHighlights v.pageData
    { v with destroyed := true, pageData := [], hm := cleared.2 }

/-! ### Specification-side reference definitions -/

/-- The literal texts of a document, page by page (the engine must never
change these; only the `el` projections are rewritten). -/
def pageTexts (pages : List (List SpanData)) : List (List (List Char)) :=
  pages.map (fun pg => pg.map (·.text))

/-- Written to the spec's words (§4.3/§4.4): the exact-substring search over
a buffer — the left-to-right global scan collecting non-overlapping
occurrences of the query, resuming immediately after each match.  Used as
the reference point for the claim that `fuzzyThreshold = 1.0` degenerates to
an exact-substring search. -/
def exactScanGo (t q : List Char) : Nat → Nat → List FuzzyMatch
  | 0, _ => []
  | fuel + 1, pos =>
    if q = [] then []
    else if pos < t.length then
      if (t.drop pos).take q.length = q then
        ⟨pos, pos + q.length, 0⟩ :: exactScanGo t q fuel (pos + q.length)
      else exactScanGo t q fuel (pos + 1)
    else []

/-- The scan from `pos`; the budget `t.length + 1 - pos` covers the loop
(each step advances `pos` by at least one when `q` is non-empty). -/
def exactScanFrom (t q : List Char) (pos : Nat) : List FuzzyMatch :=
  exactScanGo t q (t.length + 1 - pos) pos

/-- The exact-substring occurrences of `q` in `t` as found by the engine's
exact search scan. -/
def exactScan (t q : List Char) : List FuzzyMatch := exactScanFrom t q 0

/-- The DP column of the fuzzy matcher after consuming a given text prefix,
expressed as a fold (reference form of the `columns` the source stores). -/
def colFun (q : List Char) (tp : List Char) : List Nat :=
  tp.foldl (fun prev tc => nextCol tc q prev) (colInit q.length)

/-- The DP cell value as a recursive function of the *reversed* consumed
text prefix and the column index: `Efun q rp j` is the minimum number of
edits aligning the first `j` query characters against a suffix of the
prefix whose reversal is `rp` (the semi-global recurrence of the source). -/
def Efun (q : List Char) : List Char → Nat → Nat
  | [], j => j
  | _ :: _, 0 => 0
  | c :: rp, j + 1 =>
    min (Efun q rp (j + 1) + 1)
      (min (Efun q (c :: rp) j + 1)
        (Efun q rp j + (if c = q.getD j (Char.ofNat 0) then 0 else 1)))
termination_by rp j => (rp.length, j)

/-- The exact occurrences of `q` in `t` whose start position is at least
`p`, listed by increasing end position (reference list for relating the
zero-budget fuzzy candidates to the exact scan). -/
def occFrom (t q : List Char) (p : Nat) : List FuzzyMatch :=
  (List.range (t.length + 1)).filterMap (fun e =>
    if p + q.length ≤ e ∧ (t.take e).reverse.take q.length = q.reverse then
      some ⟨e - q.length, e, 0⟩
    else none)

/-- The in-budget candidate end positions of `fuzzySearchText` at `maxErrors = 0`
(the `ends` list of the source specialised to budget zero). -/
def endsZero (t q : List Char) : List (Nat × Nat) :=
  (List.range t.length).filterMap (fun i0 =>
    if ((((fuzzCols q t).getD (i0 + 1) []).getD q.length 0 : Int)) ≤ (0 : Int) then
      some (i0 + 1, ((fuzzCols q t).getD (i0 + 1) []).getD q.length 0)
    else none)

/-- The raw candidate matches of `fuzzySearchText` built from an end list by
tracing each end back to its start. -/
def rawOfEnds (t q : List Char) (ends : List (Nat × Nat)) : List FuzzyMatch :=
  ends.map (fun p =>
    { start := traceback t q (fuzzCols q t) p.1 q.length, stop := p.1, distance := p.2 })

/-- Written to the spec's words (§4.2): the consumed slice of a
flexible-whitespace match is the pattern's characters in order with zero or
more whitespace characters tolerated between every pair of consecutive
characters — equivalently, the slice starts and ends with non-whitespace
characters and its non-whitespace characters case-fold to exactly the
pattern characters. -/
abbrev flexSpec (cs : Bool) (chars t : List Char) (k : Nat) : Prop :=
  k ≤ t.length ∧
  ((t.take k).filter (fun c => ! isWs c)).map (foldC cs) = chars.map (foldC cs) ∧
  (∀ c, (t.take k).head? = some c → isWs c = false) ∧
  (∀ c, (t.take k).getLast? = some c → isWs c = false)

/-- A span with the given literal text and pristine projection. -/
def spanOf (s : String) : SpanData := { text := s.toList }

/-- A concrete mark used by counterexample/witness states. -/
def mkDemo : Mark := ⟨0, 0, 0, 1, "highlight", ['a']⟩

/-- A concrete highlight state: one match, active. -/
def hmDemo : HMState :=
  { matchList := [⟨[mkDemo]⟩], currentMatch := 0, activeMarks := [mkDemo] }

/-- A concrete viewer holding one page with one span. -/
def pvDemo : Viewer := { pageData := [[spanOf "a"]], hm := hmDemo }

/-- A concrete viewer remembering a single-query search. -/
def pvSingle : Viewer := { pageData := [[spanOf "xa"]], lastQuery := ['a'] }

/-- A concrete viewer remembering a multi-context search. -/
def pvMulti : Viewer :=
  { pageData := [[spanOf "xa"]],
    lastContexts := [{ query := ['a'] }], lastIsMultiContext := true }

/-- A concrete controller state right after searching for "a". -/
def scReplayDemo : SC := (SC.search ['a'] {} { pages := [[spanOf "xa"]] }).2

/-- A concrete viewer for multi-context demos: one page, one span "a". -/
def pvBlankDemo : Viewer := { pageData := [[spanOf "a"]] }

/-- A context list whose first registered context is blank after trimming. -/
def blankFirstContexts : List SearchContext :=
  [{ query := [' '] }, { query := ['a'] }]

/-- Contexts registered in the order ["b", "a"], while "a" occurs first in
the demo buffer "a b". -/
def orderDemoContexts : List SearchContext :=
  [{ query := ['b'] }, { query := ['a'] }]

/-- A viewer over the buffer "a b" for the multi-context ordering demo. -/
def orderDemoViewer : Viewer := { pageData := [[spanOf "a b"]] }

/-! ## Helper lemmas -/

theorem enum_map_snd_text (l : List SpanData) :
    l.enum.map (fun p => p.2.text) = l.map (·.text) := by
  have h2 : (fun p : Nat × SpanData => p.2.text)
      = (fun s : SpanData => s.text) ∘ Prod.snd := rfl
  rw [h2, ← List.map_map]
  have h3 : l.enum.map Prod.snd = l := by
    simp [List.enum, List.enumFrom_map_snd]
  rw [h3]

theorem applyHighlights_texts (pageIdx : Nat) (spans : List SpanData)
    (mrs : List (List MatchRange)) (classes : List String) (hl : String) :
    ((applyHighlights pageIdx spans mrs classes hl).1).map (·.text) = spans.map (·.text) := by
  unfold applyHighlights
  split
  · simp
  · rw [List.map_map, List.map_map]
    refine Eq.trans (List.map_congr_left ?_) (enum_map_snd_text spans)
    intro p _
    simp only [Function.comp]
    split <;> rfl

theorem pageTexts_clearHighlights (pages : List (List SpanData)) :
    pageTexts (clearHighlights pages).1 = pageTexts pages := by
  unfold pageTexts clearHighlights
  rw [List.map_map]
  refine List.map_congr_left (fun pg _ => ?_)
  simp only [Function.comp]
  rw [List.map_map]
  rfl

theorem searchPagesLoop_foldl_pages (trimmed : List Char) (opts : SearchOptions) :
    ∀ (l : List (Nat × List SpanData)) (acc : List (List SpanData) × HMState),
      pageTexts (l.foldl (fun acc pd =>
        (acc.1 ++ [(applyHighlights pd.1 pd.2 (searchPage pd.2 trimmed opts) []
            defaultHighlightCls).1],
         addMatches acc.2 (applyHighlights pd.1 pd.2 (searchPage pd.2 trimmed opts) []
            defaultHighlightCls).2)) acc).1
      = pageTexts acc.1 ++ l.map (fun pd => pd.2.map (·.text)) := by
  intro l
  induction l with
  | nil => intro acc; simp
  | cons pd l ih =>
    intro acc
    rw [List.foldl_cons, ih]
    simp only [pageTexts, List.map_append, List.map_cons, List.map_nil]
    rw [applyHighlights_texts]
    simp

theorem pageTexts_searchPagesLoop (trimmed : List Char) (opts : SearchOptions)
    (pages : List (List SpanData)) (hm : HMState) :
    pageTexts (searchPagesLoop trimmed opts pages hm).1 = pageTexts pages := by
  unfold searchPagesLoop
  rw [searchPagesLoop_foldl_pages]
  have h1 : pages.enum.map (fun pd => pd.2.map (·.text))
      = pages.map (fun pg => pg.map (·.text)) := by
    have h2 : (fun pd : Nat × List SpanData => pd.2.map (·.text))
        = (fun pg : List SpanData => pg.map (·.text)) ∘ Prod.snd := rfl
    rw [h2, ← List.map_map]
    simp [List.enum, List.enumFrom_map_snd]
  simp [pageTexts, h1]

theorem pageTexts_SC_search (q : List Char) (opts : SearchOptions) (sc : SC) :
    pageTexts (SC.search q opts sc).2.pages = pageTexts sc.pages := by
  unfold SC.search
  dsimp only
  split
  · simp [pageTexts_clearHighlights]
  · split
    · simp [pageTexts_searchPagesLoop, pageTexts_clearHighlights]
    · simp [pageTexts_searchPagesLoop, pageTexts_clearHighlights]

/-! ## Claim theorems -/

/-- C1.  For every controller state (hence every document), every query and
every options record, running a search (which rewrites span projections via
`applyHighlights`) followed by `clear` leaves every span's visual projection
bit-exactly equal to that span's original literal text, leaves the document's
literal texts untouched, empties the match list (total `0`) and resets the
active index to `-1`. -/
theorem c1_search_then_clear_round_trip (sc : SC) (q : List Char) (opts : SearchOptions) :
    (∀ pg ∈ (SC.clear (SC.search q opts sc).2).pages,
       ∀ s ∈ pg, renderEl s.el = s.text) ∧
    pageTexts (SC.clear (SC.search q opts sc).2).pages = pageTexts sc.pages ∧
    (SC.clear (SC.search q opts sc).2).hm.matchList = [] ∧
    (SC.clear (SC.search q opts sc).2).hm.currentMatch = -1 := by
  refine ⟨?_, ?_, rfl, rfl⟩
  · intro pg hpg s hs
    have hpg' : pg ∈ ((SC.search q opts sc).2.pages).map (fun pg => pg.map resetSpan) := hpg
    obtain ⟨pg0, -, rfl⟩ := List.mem_map.mp hpg'
    obtain ⟨s0, -, rfl⟩ := List.mem_map.mp hs
    simp [resetSpan, renderEl, Seg.render]
  · have h1 : pageTexts (SC.clear (SC.search q opts sc).2).pages
        = pageTexts (SC.search q opts sc).2.pages := by
      unfold SC.clear
      exact pageTexts_clearHighlights _
    rw [h1, pageTexts_SC_search]

/-- C2 counterexample.  With one match active, `setActiveMatch 5` (index out
of `[0, 1)`) is not a no-op: the stored index becomes `5` (not left at `0`)
and the previously active mark loses the active flag. -/
theorem c2_counterexample :
    ¬ ((setActiveMatch hmDemo 5).currentMatch = hmDemo.currentMatch ∧
       (setActiveMatch hmDemo 5).activeMarks = hmDemo.activeMarks) := by
  decide

/-- C2 (amended).  `setActiveMatch` with an index outside `[0, total)` stores
that raw index into `currentMatch` (it does not stay at its old value, in
particular not at `-1` unless the argument is `-1`), removes the active flag
from the previously active match's marks when the previous index was in
range, leaves the flags untouched otherwise, applies the flag to no new
marks, and leaves the match list unchanged.  `SearchController.goTo`
delegates directly to it. -/
theorem c2_set_active_out_of_range (hm : HMState) (index : Int)
    (h : ¬ (0 ≤ index ∧ index < (hm.matchList.length : Int))) :
    (setActiveMatch hm index).currentMatch = index ∧
    (setActiveMatch hm index).matchList = hm.matchList ∧
    (setActiveMatch hm index).activeMarks =
      (if 0 ≤ hm.currentMatch ∧ hm.currentMatch < (hm.matchList.length : Int) then
         hm.activeMarks.filter
           (fun m => ! (hm.matchList.getD hm.currentMatch.toNat ⟨[]⟩).marks.contains m)
       else hm.activeMarks) ∧
    (SC.goTo index { hm := hm }).hm = setActiveMatch hm index := by
  refine ⟨?_, ?_, ?_, rfl⟩ <;>
    · unfold setActiveMatch
      dsimp only
      rw [if_neg h]

/-- C2 witness: the amended statement at the concrete one-match state. -/
theorem c2_set_active_out_of_range_witness :
    (setActiveMatch hmDemo 5).currentMatch = 5 ∧
    (setActiveMatch hmDemo 5).matchList = hmDemo.matchList ∧
    (setActiveMatch hmDemo 5).activeMarks =
      (if 0 ≤ hmDemo.currentMatch ∧ hmDemo.currentMatch < (hmDemo.matchList.length : Int) then
         hmDemo.activeMarks.filter
           (fun m => ! (hmDemo.matchList.getD hmDemo.currentMatch.toNat ⟨[]⟩).marks.contains m)
       else hmDemo.activeMarks) ∧
    (SC.goTo 5 { hm := hmDemo }).hm = setActiveMatch hmDemo 5 :=
  c2_set_active_out_of_range hmDemo 5 (by decide)

/-- C3 counterexample.  After `destroy()`, `nextMatch` does not fail: the
source has no destroyed-state guard there, so it proceeds on the torn-down
(emptied) state and succeeds (returning `-1`). -/
theorem c3_counterexample :
    ¬ ((PV.nextMatch (PV.destroy pvDemo)).isOk = false) := by
  decide

/-- C3 (amended).  After teardown (`destroyed = true`, as `destroy` sets it),
`search`, `searchMultiple`, `loadPDF`, `setScale` and `download` fail loudly
with the fatal usage error, but `nextMatch`, `prevMatch` and `clearSearch`
have no destroyed-state guard: they proceed on the torn-down state and
succeed (`nextMatch`/`prevMatch` return `-1` on the emptied match list). -/
theorem c3_destroyed_guards (v : Viewer) (q : List Char) (opts : SearchOptions)
    (cs : List SearchContext) (sh : SearchOptions) (np : List (List SpanData))
    (h : v.destroyed = true) :
    (PV.destroy v).destroyed = true ∧
    PV.search q opts v = .error destroyedMsg ∧
    PV.searchMultiple cs sh v = .error destroyedMsg ∧
    PV.loadPDF np v = .error destroyedMsg ∧
    PV.setScale np v = .error destroyedMsg ∧
    PV.download v = .error destroyedMsg ∧
    (PV.nextMatch v).isOk = true ∧
    (PV.prevMatch v).isOk = true ∧
    (PV.clearSearch v).isOk = true := by
  refine ⟨?_, ?_, ?_, ?_, ?_, ?_, rfl, rfl, rfl⟩ <;>
    simp [PV.destroy, PV.search, PV.searchMultiple, PV.loadPDF, PV.setScale,
      PV.download, h]

/-- C3 witness: the amended statement at a destroyed concrete viewer. -/
theorem c3_destroyed_guards_witness :
    (PV.destroy (PV.destroy pvDemo)).destroyed = true ∧
    PV.search ['a'] {} (PV.destroy pvDemo) = .error destroyedMsg ∧
    PV.searchMultiple [] {} (PV.destroy pvDemo) = .error destroyedMsg ∧
    PV.loadPDF [] (PV.destroy pvDemo) = .error destroyedMsg ∧
    PV.setScale [] (PV.destroy pvDemo) = .error destroyedMsg ∧
    PV.download (PV.destroy pvDemo) = .error destroyedMsg ∧
    (PV.nextMatch (PV.destroy pvDemo)).isOk = true ∧
    (PV.prevMatch (PV.destroy pvDemo)).isOk = true ∧
    (PV.clearSearch (PV.destroy pvDemo)).isOk = true :=
  c3_destroyed_guards (PV.destroy pvDemo) ['a'] {} [] {} [] (by decide)

theorem searchCore_proj (q : List Char) (opts : SearchOptions) (v w : Viewer)
    (h : v.pageData = w.pageData) :
    (searchCore q opts v).2.hm = (searchCore q opts w).2.hm ∧
    (searchCore q opts v).2.pageData = (searchCore q opts w).2.pageData ∧
    (searchCore q opts v).1 = (searchCore q opts w).1 := by
  unfold searchCore
  dsimp only
  rw [h]
  split
  · exact ⟨rfl, rfl, rfl⟩
  · split <;> exact ⟨rfl, rfl, rfl⟩

theorem searchMultipleCore_proj (cs : List SearchContext) (sh : SearchOptions)
    (v w : Viewer) (h : v.pageData = w.pageData) :
    (searchMultipleCore cs sh v).2.hm = (searchMultipleCore cs sh w).2.hm ∧
    (searchMultipleCore cs sh v).2.pageData = (searchMultipleCore cs sh w).2.pageData ∧
    (searchMultipleCore cs sh v).1 = (searchMultipleCore cs sh w).1 := by
  unfold searchMultipleCore
  dsimp only
  rw [h]
  split
  · exact ⟨rfl, rfl, rfl⟩
  · split <;> exact ⟨rfl, rfl, rfl⟩

/-- C9 counterexample.  `SearchController.setPages` does not replay a
remembered search: starting from a controller that had found "a", supplying
a new document leaves an empty match list, while running the remembered
search fresh on the new document finds a match. -/
theorem c9_counterexample :
    ¬ ((SC.setPages [[spanOf "a"]] scReplayDemo).hm.matchList
        = (SC.search scReplayDemo.lastQuery {}
            ({ pages := [[spanOf "a"]] } : SC)).2.hm.matchList) := by
  decide

/-- C9 (amended).  Only the viewer's re-render path replays: whenever the
re-rendered document is installed (`setScale` → `rerender`), a remembered
multi-context set or non-blank query is re-executed against the new document,
and the resulting highlight state equals that of running the same search
fresh on the new document.  `SearchController.setPages` instead calls
`clear()`: it resets the match state and forgets the remembered query, so no
replay happens there. -/
theorem c9_rerender_replays (v : Viewer) (np : List (List SpanData)) :
    ((v.lastIsMultiContext ∧ v.lastContexts ≠ []) →
      (PV.rerenderWith np v).hm
        = (searchMultipleCore v.lastContexts v.lastSearchOptions
            ({ pageData := np } : Viewer)).2.hm) ∧
    (¬ (v.lastIsMultiContext ∧ v.lastContexts ≠ []) → jsTrim v.lastQuery ≠ [] →
      (PV.rerenderWith np v).hm
        = (searchCore v.lastQuery v.lastSearchOptions
            ({ pageData := np } : Viewer)).2.hm) ∧
    ((SC.setPages np scReplayDemo).hm.matchList = [] ∧
      (SC.setPages np scReplayDemo).lastQuery = []) := by
  refine ⟨?_, ?_, rfl, rfl⟩
  · intro h
    unfold PV.rerenderWith
    dsimp only
    rw [if_pos h]
    refine (searchMultipleCore_proj _ _ _ _ ?_).1
    rfl
  · intro h1 h2
    unfold PV.rerenderWith
    dsimp only
    rw [if_neg h1, if_pos h2]
    refine (searchCore_proj _ _ _ _ ?_).1
    rfl

/-- C9 witness: the replay equalities at concrete viewers (one remembering a
multi-context search, one a single query), re-rendered onto a new page. -/
theorem c9_rerender_replays_witness :
    ((PV.rerenderWith [[spanOf "a a"]] pvMulti).hm
      = (searchMultipleCore pvMulti.lastContexts pvMulti.lastSearchOptions
          ({ pageData := [[spanOf "a a"]] } : Viewer)).2.hm) ∧
    ((PV.rerenderWith [[spanOf "a a"]] pvSingle).hm
      = (searchCore pvSingle.lastQuery pvSingle.lastSearchOptions
          ({ pageData := [[spanOf "a a"]] } : Viewer)).2.hm) :=
  ⟨(c9_rerender_replays pvMulti [[spanOf "a a"]]).1 (by exact ⟨rfl, by decide⟩),
   (c9_rerender_replays pvSingle [[spanOf "a a"]]).2.1 (by decide) (by decide)⟩

/-- C8 counterexample.  Registering a blank context at index 0 and "a" at
index 1 over a page containing "a": the claim predicts the match is tagged
with registration index 1, i.e. class `highlight-1`, but the source indexes
into the filtered non-blank contexts, tagging it `highlight-0`. -/
theorem c8_counterexample :
    ((searchMultipleCore blankFirstContexts {} pvBlankDemo).2.hm.matchList.map
        (fun m => m.marks.map (·.cls)) = [["highlight-0"]]) ∧
    ¬ ((searchMultipleCore blankFirstContexts {} pvBlankDemo).2.hm.matchList.map
        (fun m => m.marks.map (·.cls)) = [["highlight-1"]]) := by
  exact ⟨by decide, by decide⟩

/-- C8 (amended).  `searchMultiple` filters out contexts whose query is
blank after trimming and tags every match of the `k`-th *remaining* context
with class `highlight-(k mod 8)`; hence blank registered contexts shift the
tags of the following contexts down, and dropping blank contexts from the
input leaves the result (total and highlight state) unchanged. -/
theorem c8_context_tagging :
    (∀ (cs : List SearchContext) (sh : SearchOptions) (v : Viewer),
      (searchMultipleCore cs sh v).2.hm
          = (searchMultipleCore (cs.filter (fun c => jsTrim c.query ≠ [])) sh v).2.hm ∧
      (searchMultipleCore cs sh v).1
          = (searchMultipleCore (cs.filter (fun c => jsTrim c.query ≠ [])) sh v).1) ∧
    (∀ (valid : List SearchContext) (sh : SearchOptions) (pd : List SpanData),
      ∀ x ∈ multiPageCollect valid sh pd,
        ∃ ci, ci < valid.length ∧ x.2.2 = ci ∧
          x.2.1 = "highlight-" ++ toString (ci % MULTI_CONTEXT_COLOR_COUNT)) ∧
    ((searchMultipleCore blankFirstContexts {} pvBlankDemo).2.hm.matchList.map
        (fun m => m.marks.map (·.cls)) = [["highlight-0"]]) := by
  refine ⟨?_, ?_, by decide⟩
  · intro cs sh v
    unfold searchMultipleCore
    dsimp only
    have hv : (cs.filter (fun c => jsTrim c.query ≠ [])).filter
        (fun c => jsTrim c.query ≠ []) = cs.filter (fun c => jsTrim c.query ≠ []) := by
      simp [List.filter_filter]
    rw [hv]
    split
    · exact ⟨rfl, rfl⟩
    · split <;> exact ⟨rfl, rfl⟩
  · intro valid sh pd x hx
    unfold multiPageCollect at hx
    rw [List.mem_flatten] at hx
    obtain ⟨l, hl, hxl⟩ := hx
    rw [List.mem_map] at hl
    obtain ⟨p, hp, rfl⟩ := hl
    rw [List.mem_map] at hxl
    obtain ⟨mr, -, rfl⟩ := hxl
    refine ⟨p.1, ?_, rfl, rfl⟩
    have h1 := List.mem_enum_iff_getElem?.mp hp
    have h2 := List.getElem?_eq_some.mp h1
    exact h2.1

theorem fuzzySearchText_empty_text (q : List Char) (e : Int) :
    fuzzySearchText [] q e = [] := by
  unfold fuzzySearchText
  simp

theorem fuzzySearchText_empty_query (t : List Char) (e : Int) :
    fuzzySearchText t [] e = [] := by
  unfold fuzzySearchText
  simp

/-- `fuzzySearchPage` unfolded: the matcher runs over the (case-folded but
unstripped) concatenated buffer, only the query is whitespace-stripped, the
budget is `⌊len·(1 − threshold)⌋`, and the returned offsets are mapped
through the char map of the unstripped buffer directly. -/
theorem fuzzySearchPage_eq (spans : List SpanData) (q : List Char)
    (opts : SearchOptions) :
    fuzzySearchPage spans q opts =
      (fuzzySearchText
          (if opts.caseSensitive.getD false then (buildTextAndCharMap spans).1
           else (buildTextAndCharMap spans).1.map Char.toLower)
          ((if opts.caseSensitive.getD false then q else q.map Char.toLower).filter
            (fun c => ! isWs c))
          ⌊(((if opts.caseSensitive.getD false then q
               else q.map Char.toLower).filter (fun c => ! isWs c)).length : ℚ)
              * (1 - opts.fuzzyThreshold.getD (6 / 10 : ℚ))⌋).map
        (fun m => mapToSpanRanges m.start m.stop (buildTextAndCharMap spans).2) := by
  unfold fuzzySearchPage
  dsimp only
  by_cases h1 : (buildTextAndCharMap spans).1 = []
  · rw [if_pos h1, h1]
    simp [fuzzySearchText_empty_text]
  · rw [if_neg h1]
    by_cases h2 : ((if opts.caseSensitive.getD false then q
        else q.map Char.toLower).filter (fun c => ! isWs c)) = []
    · rw [if_pos h2, h2]
      simp [fuzzySearchText_empty_query]
    · rw [if_neg h2]

/-- C10.  In fuzzy mode only the query is whitespace-stripped: the
edit-distance matcher runs over the unstripped (case-folded) concatenated
buffer with budget `⌊len·(1 − threshold)⌋`, and the returned offsets index
that unstripped buffer and go straight through the position map.
Consequently buffer whitespace inside a match is an ordinary non-matching
character costing one error: query "ab" on buffer "a b" finds nothing at the
default threshold (budget `⌊2·0.4⌋ = 0`) but with threshold 0.5 (budget 1)
returns a match `[1, 3)` whose span range covers the whitespace character. -/
theorem c10_fuzzy_unstripped_buffer :
    (∀ (spans : List SpanData) (q : List Char) (opts : SearchOptions),
      fuzzySearchPage spans q opts =
        (fuzzySearchText
            (if opts.caseSensitive.getD false then (buildTextAndCharMap spans).1
             else (buildTextAndCharMap spans).1.map Char.toLower)
            ((if opts.caseSensitive.getD false then q else q.map Char.toLower).filter
              (fun c => ! isWs c))
            ⌊(((if opts.caseSensitive.getD false then q
                 else q.map Char.toLower).filter (fun c => ! isWs c)).length : ℚ)
                * (1 - opts.fuzzyThreshold.getD (6 / 10 : ℚ))⌋).map
          (fun m => mapToSpanRanges m.start m.stop (buildTextAndCharMap spans).2)) ∧
    fuzzySearchPage [spanOf "a b"] ['a', 'b'] { fuzzy := some true } = [] ∧
    fuzzySearchPage [spanOf "a b"] ['a', 'b']
        { fuzzy := some true, fuzzyThreshold := some (1 / 2 : ℚ) }
      = [[⟨0, 0, 1⟩], [⟨0, 1, 3⟩]] := by
  refine ⟨fuzzySearchPage_eq, ?_, ?_⟩
  · rw [fuzzySearchPage_eq]
    have hq : ((if ({ fuzzy := some true } : SearchOptions).caseSensitive.getD false
        then (['a', 'b'] : List Char)
        else (['a', 'b'] : List Char).map Char.toLower).filter (fun c => ! isWs c))
        = ['a', 'b'] := by decide
    rw [hq]
    have hf : (⌊((['a', 'b'] : List Char).length : ℚ)
        * (1 - ({ fuzzy := some true } : SearchOptions).fuzzyThreshold.getD (6 / 10 : ℚ))⌋
          : Int) = 0 := by
      norm_num [Option.getD]
    rw [hf]
    decide
  · rw [fuzzySearchPage_eq]
    have hq : ((if ({ fuzzy := some true, fuzzyThreshold := some (1 / 2 : ℚ) }
          : SearchOptions).caseSensitive.getD false
        then (['a', 'b'] : List Char)
        else (['a', 'b'] : List Char).map Char.toLower).filter (fun c => ! isWs c))
        = ['a', 'b'] := by decide
    rw [hq]
    have hf : (⌊((['a', 'b'] : List Char).length : ℚ)
        * (1 - ({ fuzzy := some true, fuzzyThreshold := some (1 / 2 : ℚ) }
            : SearchOptions).fuzzyThreshold.getD (6 / 10 : ℚ))⌋ : Int) = 1 := by
      norm_num [Option.getD]
    rw [hf]
    decide

theorem pairwise_orderedInsert_on {α : Type} (r : α → α → Prop) [DecidableRel r]
    (P : α → Prop)
    (htot : ∀ a b, P a → P b → r a b ∨ r b a)
    (htrans : ∀ a b c, P a → P b → P c → r a b → r b c → r a c)
    (a : α) (ha : P a) :
    ∀ l : List α, (∀ x ∈ l, P x) → l.Pairwise r →
      (List.orderedInsert r a l).Pairwise r
  | [], _, _ => by simp
  | b :: l, hP, hp => by
    rw [List.orderedInsert]
    split
    · refine List.Pairwise.cons ?_ hp
      intro x hx
      rcases List.mem_cons.mp hx with rfl | hx2
      · assumption
      · rename_i hab
        have hbx := (List.pairwise_cons.mp hp).1 x hx2
        exact htrans a b x ha (hP b (by simp)) (hP x (by simp [hx2])) hab hbx
    · rename_i hab
      have hba : r b a := by
        rcases htot a b ha (hP b (by simp)) with h | h
        · exact absurd h hab
        · exact h
      refine List.Pairwise.cons ?_
        (pairwise_orderedInsert_on r P htot htrans a ha l
          (fun x hx => hP x (by simp [hx])) (List.pairwise_cons.mp hp).2)
      intro x hx
      rcases (List.mem_orderedInsert r).mp hx with rfl | hx2
      · exact hba
      · exact (List.pairwise_cons.mp hp).1 x hx2

theorem pairwise_insertionSort_on {α : Type} (r : α → α → Prop) [DecidableRel r]
    (P : α → Prop)
    (htot : ∀ a b, P a → P b → r a b ∨ r b a)
    (htrans : ∀ a b c, P a → P b → P c → r a b → r b c → r a c) :
    ∀ l : List α, (∀ x ∈ l, P x) → (List.insertionSort r l).Pairwise r
  | [], _ => by simp
  | a :: l, hP => by
    rw [List.insertionSort]
    refine pairwise_orderedInsert_on r P htot htrans a (hP a (by simp))
      (List.insertionSort r l) ?_
      (pairwise_insertionSort_on r P htot htrans l
        (fun x hx => hP x (by simp [hx])))
    intro x hx
    exact hP x (List.mem_cons_of_mem a ((List.mem_insertionSort r).mp hx))

theorem multiLe_total_of_ne (a b : List MatchRange × String × Nat)
    (ha : a.1 ≠ []) (hb : b.1 ≠ []) : multiLe a b ∨ multiLe b a := by
  rcases a with ⟨ar, arest⟩
  rcases b with ⟨br, brest⟩
  cases ar with
  | nil => exact absurd rfl ha
  | cons af ar' =>
    cases br with
    | nil => exact absurd rfl hb
    | cons bf br' =>
      unfold multiLe
      simp only [List.head?]
      omega

theorem multiLe_trans_of_ne (a b c : List MatchRange × String × Nat)
    (ha : a.1 ≠ []) (hb : b.1 ≠ []) (hc : c.1 ≠ [])
    (h1 : multiLe a b) (h2 : multiLe b c) : multiLe a c := by
  rcases a with ⟨ar, arest⟩
  rcases b with ⟨br, brest⟩
  rcases c with ⟨cr, crest⟩
  cases ar with
  | nil => exact absurd rfl ha
  | cons af ar' =>
    cases br with
    | nil => exact absurd rfl hb
    | cons bf br' =>
      cases cr with
      | nil => exact absurd rfl hc
      | cons cf cr' =>
        unfold multiLe at h1 h2 ⊢
        simp only [List.head?] at h1 h2 ⊢
        omega

/-- C7.  The per-page combined list of every context's matches is stably
sorted by the `(spanIdx, start)` of each match's first range before
highlights are applied (the comparator is a genuine total preorder whenever
every match has a non-empty first range, which the search paths produce), so
the match list `next()`/`prev()` traverse is in buffer-position order
regardless of registration order: registering ["b", "a"] over the buffer
"a b" yields the "a" match (span 0 offset 0, context 1) strictly before the
"b" match (span 0 offset 2, context 0). -/
theorem c7_multi_context_document_order
    (valid : List SearchContext) (sh : SearchOptions) (pd : List SpanData)
    (hne : ∀ x ∈ multiPageCollect valid sh pd, x.1 ≠ []) :
    (multiPageSorted valid sh pd).Pairwise multiLe ∧
    (searchMultipleCore orderDemoContexts {} orderDemoViewer).2.hm.matchList.map
        (fun m => m.marks.map (fun mk => (mk.span, mk.start, mk.stop, mk.cls)))
      = [[(0, 0, 1, "highlight-1")], [(0, 2, 3, "highlight-0")]] := by
  constructor
  · exact pairwise_insertionSort_on multiLe (fun x => x.1 ≠ [])
      multiLe_total_of_ne multiLe_trans_of_ne (multiPageCollect valid sh pd) hne
  · decide

/-- C7 witness: the sortedness statement at the demo contexts and page. -/
theorem c7_multi_context_document_order_witness :
    (multiPageSorted orderDemoContexts {} [spanOf "a b"]).Pairwise multiLe ∧
    (searchMultipleCore orderDemoContexts {} orderDemoViewer).2.hm.matchList.map
        (fun m => m.marks.map (fun mk => (mk.span, mk.start, mk.stop, mk.cls)))
      = [[(0, 0, 1, "highlight-1")], [(0, 2, 3, "highlight-0")]] :=
  c7_multi_context_document_order orderDemoContexts {} [spanOf "a b"] (by decide)

instance : IsTotal FuzzyMatch fuzzyLe :=
  ⟨fun a b => by unfold fuzzyLe; omega⟩

instance : IsTrans FuzzyMatch fuzzyLe :=
  ⟨fun a b c h1 h2 => by unfold fuzzyLe at h1 h2 ⊢; omega⟩

theorem tracebackGo_le (t q : List Char) (cols : List (List Nat)) :
    ∀ (fuel i j : Nat), tracebackGo t q cols fuel i j ≤ i := by
  intro fuel
  induction fuel with
  | zero => intro i j; simp [tracebackGo]
  | succ fuel ih =>
    intro i j
    rw [tracebackGo]
    split
    · dsimp only
      repeat' split
      all_goals exact le_trans (ih _ _) (by omega)
    · exact Nat.le_refl i

theorem mergeOvAux_props : ∀ (l : List FuzzyMatch) (a : FuzzyMatch),
    a.start ≤ a.stop → (∀ x ∈ l, x.start ≤ x.stop) →
    (∀ x ∈ l, a.start ≤ x.start) →
    l.Pairwise (fun x y => x.start ≤ y.start) →
    (∀ m ∈ mergeOvAux a l, m.start ≤ m.stop) ∧
    (mergeOvAux a l).Pairwise (fun x y => x.stop ≤ y.start) ∧
    (∀ m ∈ mergeOvAux a l, a.start ≤ m.start)
  | [], a, ha, _, _, _ => by
    refine ⟨?_, ?_, ?_⟩ <;> simp [mergeOvAux, ha]
  | b :: l, a, ha, hse, hstart, hsorted => by
    have hab : a.start ≤ b.start := hstart b (by simp)
    have hb : b.start ≤ b.stop := hse b (by simp)
    have hse' : ∀ x ∈ l, x.start ≤ x.stop := fun x hx => hse x (by simp [hx])
    have hbl : ∀ x ∈ l, b.start ≤ x.start := (List.pairwise_cons.mp hsorted).1
    have hal : ∀ x ∈ l, a.start ≤ x.start := fun x hx => hstart x (by simp [hx])
    have hsl : l.Pairwise (fun x y => x.start ≤ y.start) :=
      (List.pairwise_cons.mp hsorted).2
    rw [mergeOvAux]
    split
    · split
      · obtain ⟨h1, h2, h3⟩ := mergeOvAux_props l b hb hse' hbl hsl
        exact ⟨h1, h2, fun m hm => le_trans hab (h3 m hm)⟩
      · exact mergeOvAux_props l a ha hse' hal hsl
    · rename_i hno
      have hasb : a.stop ≤ b.start := Nat.le_of_not_lt hno
      obtain ⟨h1, h2, h3⟩ := mergeOvAux_props l b hb hse' hbl hsl
      refine ⟨?_, ?_, ?_⟩
      · intro m hm
        rcases List.mem_cons.mp hm with rfl | hm2
        · exact ha
        · exact h1 m hm2
      · refine List.Pairwise.cons ?_ h2
        intro m hm
        exact le_trans hasb (h3 m hm)
      · intro m hm
        rcases List.mem_cons.mp hm with rfl | hm2
        · exact Nat.le_refl _
        · exact le_trans hab (h3 m hm2)

theorem mergeOv_props (l : List FuzzyMatch)
    (hse : ∀ x ∈ l, x.start ≤ x.stop)
    (hsorted : l.Pairwise (fun x y => x.start ≤ y.start)) :
    (∀ m ∈ mergeOv l, m.start ≤ m.stop) ∧
    (mergeOv l).Pairwise (fun x y => x.stop ≤ y.start) := by
  cases l with
  | nil => simp [mergeOv]
  | cons a l =>
    have h := mergeOvAux_props l a (hse a (by simp))
      (fun x hx => hse x (by simp [hx]))
      ((List.pairwise_cons.mp hsorted).1)
      ((List.pairwise_cons.mp hsorted).2)
    exact ⟨h.1, h.2.1⟩

theorem fuzzySearchText_ordered (t q : List Char) (e : Int) :
    (∀ m ∈ fuzzySearchText t q e, m.start ≤ m.stop) ∧
    (fuzzySearchText t q e).Pairwise (fun a b => a.stop ≤ b.start) := by
  unfold fuzzySearchText
  dsimp only
  split
  · simp
  · split
    · simp
    · split
      · simp
      · set raw := ((List.range t.length).filterMap (fun i0 =>
          if ((((fuzzCols q t).getD (i0 + 1) []).getD q.length 0 : Int) ≤ e) then
            some (i0 + 1, ((fuzzCols q t).getD (i0 + 1) []).getD q.length 0)
          else none)).map (fun p =>
            ({ start := traceback t q (fuzzCols q t) p.1 q.length, stop := p.1,
               distance := p.2 } : FuzzyMatch)) with hraw
        have hse : ∀ x ∈ List.insertionSort fuzzyLe raw, x.start ≤ x.stop := by
          intro x hx
          have hx2 := (List.mem_insertionSort fuzzyLe).mp hx
          rw [hraw] at hx2
          obtain ⟨p, -, rfl⟩ := List.mem_map.mp hx2
          exact tracebackGo_le t q (fuzzCols q t) (p.1 + q.length) p.1 q.length
        have hsorted : (List.insertionSort fuzzyLe raw).Pairwise
            (fun x y => x.start ≤ y.start) := by
          refine List.Pairwise.imp ?_ (List.sorted_insertionSort fuzzyLe raw)
          intro x y hxy
          unfold fuzzyLe at hxy
          omega
        exact mergeOv_props _ hse hsorted

/-- C5.  The fuzzy matcher's post-processing: raw candidates are stably
sorted by `(start, distance)`; the merge walks the sorted list and, when the
incoming candidate overlaps the last kept one, keeps the incoming one only
when its distance is strictly lower (first-seen wins on exact distance
ties), keeping non-overlapping candidates independently; and the returned
list is ordered by start and pairwise non-overlapping (`a.stop ≤ b.start`
for every earlier `a` and later `b`, each with `start ≤ stop`). -/
theorem c5_fuzzy_merge_postprocessing :
    (∀ l : List FuzzyMatch, (List.insertionSort fuzzyLe l).Pairwise fuzzyLe) ∧
    (∀ (a b : FuzzyMatch) (l : List FuzzyMatch),
      (b.start < a.stop → b.distance < a.distance →
        mergeOvAux a (b :: l) = mergeOvAux b l) ∧
      (b.start < a.stop → ¬ b.distance < a.distance →
        mergeOvAux a (b :: l) = mergeOvAux a l) ∧
      (¬ b.start < a.stop → mergeOvAux a (b :: l) = a :: mergeOvAux b l)) ∧
    (∀ (t q : List Char) (e : Int),
      (∀ m ∈ fuzzySearchText t q e, m.start ≤ m.stop) ∧
      (fuzzySearchText t q e).Pairwise (fun a b => a.stop ≤ b.start)) := by
  refine ⟨?_, ?_, fuzzySearchText_ordered⟩
  · intro l
    exact List.sorted_insertionSort fuzzyLe l
  · intro a b l
    refine ⟨?_, ?_, ?_⟩
    · intro h1 h2
      rw [mergeOvAux]
      rw [if_pos h1, if_pos h2]
    · intro h1 h2
      rw [mergeOvAux]
      rw [if_pos h1, if_neg h2]
    · intro h1
      rw [mergeOvAux]
      rw [if_neg h1]

/-- C5 witness: merge-step behaviour at concrete overlapping candidates (a
strictly better overlap replaces, a tie keeps the first seen, a disjoint
candidate is appended) and the ordering property at a concrete run. -/
theorem c5_fuzzy_merge_postprocessing_witness :
    (mergeOvAux ⟨0, 3, 1⟩ [⟨1, 4, 0⟩] = mergeOvAux ⟨1, 4, 0⟩ []) ∧
    (mergeOvAux ⟨0, 3, 0⟩ [⟨1, 4, 0⟩] = mergeOvAux ⟨0, 3, 0⟩ []) ∧
    (mergeOvAux ⟨0, 3, 0⟩ [⟨5, 6, 0⟩] = ⟨0, 3, 0⟩ :: mergeOvAux ⟨5, 6, 0⟩ []) :=
  ⟨((c5_fuzzy_merge_postprocessing.2.1 ⟨0, 3, 1⟩ ⟨1, 4, 0⟩ []).1
      (by decide) (by decide)),
   ((c5_fuzzy_merge_postprocessing.2.1 ⟨0, 3, 0⟩ ⟨1, 4, 0⟩ []).2.1
      (by decide) (by decide)),
   ((c5_fuzzy_merge_postprocessing.2.1 ⟨0, 3, 0⟩ ⟨5, 6, 0⟩ []).2.2
      (by decide))⟩

theorem toNat_ofNat_valid (n : Nat) (h : n.isValidChar) : (Char.ofNat n).toNat = n := by
  simp [Char.ofNat, h, Char.ofNatAux, Char.toNat, UInt32.toNat, BitVec.toNat_ofNatLt]

theorem toNat_toLower (c : Char) :
    (Char.toLower c).toNat
      = if 65 ≤ c.toNat ∧ c.toNat ≤ 90 then c.toNat + 32 else c.toNat := by
  unfold Char.toLower
  dsimp only
  split
  · rename_i h
    have hv : (c.toNat + 32).isValidChar := Or.inl (by omega)
    rw [toNat_ofNat_valid _ hv]
  · rfl

theorem isWs_iff (c : Char) : isWs c = true ↔
    (c.toNat = 32 ∨ c.toNat = 9 ∨ c.toNat = 10 ∨ c.toNat = 13 ∨
     c.toNat = 11 ∨ c.toNat = 12 ∨ c.toNat = 0xa0 ∨ c.toNat = 0x1680 ∨
     (0x2000 ≤ c.toNat ∧ c.toNat ≤ 0x200a) ∨ c.toNat = 0x2028 ∨
     c.toNat = 0x2029 ∨ c.toNat = 0x202f ∨ c.toNat = 0x205f ∨
     c.toNat = 0x3000 ∨ c.toNat = 0xfeff) := by
  simp [isWs]
  tauto

theorem isWs_eq_of_toNat (a b : Char) (h : a.toNat = b.toNat) : isWs a = isWs b := by
  simp [isWs, h]

theorem isWs_toLower (c : Char) : isWs c.toLower = isWs c := by
  have h2 := toNat_toLower c
  by_cases h : 65 ≤ c.toNat ∧ c.toNat ≤ 90
  · rw [if_pos h] at h2
    have e1 : isWs c.toLower = false := by
      cases hb : isWs c.toLower with
      | false => rfl
      | true =>
        exfalso
        have h3 := (isWs_iff _).mp hb
        rw [h2] at h3
        omega
    have e2 : isWs c = false := by
      cases hb : isWs c with
      | false => rfl
      | true =>
        exfalso
        have h3 := (isWs_iff _).mp hb
        omega
    rw [e1, e2]
  · rw [if_neg h] at h2
    exact isWs_eq_of_toNat _ _ h2

theorem foldEq_iff_foldC (cs : Bool) (a b : Char) :
    foldEq cs a b = true ↔ foldC cs a = foldC cs b := by
  cases cs <;> simp [foldEq, foldC]

/-- A text character that the pattern compares equal (under the case fold)
to a non-whitespace pattern character is itself non-whitespace. -/
theorem foldEq_not_ws (cs : Bool) (x c : Char) (hc : isWs c = false)
    (h : foldEq cs x c = true) : isWs x = false := by
  cases cs with
  | true =>
    simp [foldEq] at h
    rw [h]; exact hc
  | false =>
    simp [foldEq] at h
    have h1 : isWs x = isWs x.toLower := (isWs_toLower x).symm
    rw [h1, h, isWs_toLower]
    exact hc

theorem take_length_takeWhile (p : Char → Bool) (l : List Char) :
    l.take (l.takeWhile p).length = l.takeWhile p := by
  induction l with
  | nil => simp
  | cons c l ih => by_cases h : p c <;> simp [List.takeWhile_cons, h, ih]

theorem drop_length_takeWhile (p : Char → Bool) (l : List Char) :
    l.drop (l.takeWhile p).length = l.dropWhile p := by
  induction l with
  | nil => simp
  | cons c l ih => by_cases h : p c <;> simp [List.takeWhile_cons, List.dropWhile_cons, h, ih]

theorem head?_dropWhile_false (p : Char → Bool) (l : List Char) :
    ∀ c, (l.dropWhile p).head? = some c → p c = false := by
  induction l with
  | nil => intro c h; simp at h
  | cons a l ih =>
    intro c h
    by_cases ha : p a
    · rw [List.dropWhile_cons, if_pos ha] at h
      exact ih c h
    · rw [List.dropWhile_cons, if_neg ha] at h
      simp only [List.head?_cons, Option.some.injEq] at h
      subst h
      simpa using ha

theorem wsRunLen_le (t : List Char) : wsRunLen t ≤ t.length := by
  unfold wsRunLen
  exact (List.takeWhile_sublist _).length_le

theorem mem_take_wsRun (t : List Char) (n : Nat) (hn : n ≤ wsRunLen t) :
    ∀ a ∈ t.take n, isWs a = true := by
  intro a ha
  have h1 : t.take n = (t.take (wsRunLen t)).take n := by
    rw [List.take_take, Nat.min_eq_left hn]
  rw [h1] at ha
  have h2 : t.take (wsRunLen t) = t.takeWhile (isWs ·) :=
    take_length_takeWhile _ t
  rw [h2] at ha
  exact List.mem_takeWhile_imp (List.mem_of_mem_take ha)

theorem perCharMatchLen_some_iff (cs : Bool) :
    ∀ (chars : List Char), chars ≠ [] → (∀ c ∈ chars, isWs c = false) →
    ∀ (t : List Char) (k : Nat),
      (perCharMatchLen cs chars t = some k ↔ flexSpec cs chars t k)
  | [], hne, _ => absurd rfl hne
  | [c], _, hnws => by
    intro t k
    have hcw : isWs c = false := hnws c (by simp)
    cases t with
    | nil =>
      constructor
      · intro h; simp [perCharMatchLen] at h
      · rintro ⟨hk, hfil, -, -⟩
        simp only [List.length_nil, Nat.le_zero] at hk
        subst hk
        simp at hfil
    | cons x ts =>
      by_cases hfe : foldEq cs x c = true
      · have hxw : isWs x = false := foldEq_not_ws cs x c hcw hfe
        have hfc : foldC cs x = foldC cs c := (foldEq_iff_foldC cs x c).mp hfe
        rw [show perCharMatchLen cs [c] (x :: ts) = some 1 by
          simp [perCharMatchLen, hfe]]
        constructor
        · intro h
          have hk : 1 = k := by simpa using h
          subst hk
          refine ⟨by simp, ?_, ?_, ?_⟩
          · simp [hxw, hfc]
          · intro c' hc'
            simp at hc'
            subst hc'
            exact hxw
          · intro c' hc'
            simp at hc'
            subst hc'
            exact hxw
        · rintro ⟨hk, hfil, hhead, hlast⟩
          rcases k with _ | k'
          · simp at hfil
          · rcases k' with _ | k''
            · rfl
            · exfalso
              simp only [List.take_succ_cons] at hfil hhead hlast
              have hts : 1 ≤ ts.length := by
                simp only [List.length_cons] at hk
                omega
              have hR : ts.take (k'' + 1) ≠ [] := by
                intro h0
                rcases List.take_eq_nil_iff.mp h0 with h1 | h1
                · exact absurd h1 (by omega)
                · rw [h1] at hts; simp at hts
              simp only [List.filter_cons, hxw, Bool.not_false, if_true,
                List.map_cons, List.cons.injEq] at hfil
              have hfilR : (ts.take (k'' + 1)).filter (fun c => ! isWs c) = [] := by
                have := hfil.2
                simpa using this
              have hwsR : ∀ a ∈ ts.take (k'' + 1), isWs a = true := by
                intro a ha
                have := List.filter_eq_nil_iff.mp hfilR a ha
                simpa using this
              obtain ⟨y, hy⟩ := Option.isSome_iff_exists.mp
                (List.getLast?_isSome.mpr hR)
              have hyR : y ∈ ts.take (k'' + 1) := List.mem_of_getLast?_eq_some hy
              have hylast : (x :: ts.take (k'' + 1)).getLast? = some y := by
                rw [show x :: ts.take (k'' + 1) = [x] ++ ts.take (k'' + 1) from rfl]
                rw [List.getLast?_append, hy]
                rfl
              have := hlast y hylast
              rw [hwsR y hyR] at this
              exact absurd this (by simp)
      · rw [show perCharMatchLen cs [c] (x :: ts) = none by
          simp [perCharMatchLen, hfe]]
        constructor
        · intro h; simp at h
        · rintro ⟨hk, hfil, hhead, hlast⟩
          exfalso
          rcases k with _ | k'
          · simp at hfil
          · simp only [List.take_succ_cons] at hfil hhead
            have hxw : isWs x = false := hhead x (by simp)
            simp only [List.filter_cons, hxw, Bool.not_false, if_true,
              List.map_cons, List.cons.injEq] at hfil
            exact hfe ((foldEq_iff_foldC cs x c).mpr hfil.1)
  | c :: p2 :: ps, _, hnws => by
    intro t k
    have hcw : isWs c = false := hnws c (by simp)
    have hnws2 : ∀ a ∈ p2 :: ps, isWs a = false := fun a ha => hnws a (by simp [ha])
    have ih := perCharMatchLen_some_iff cs (p2 :: ps) (by simp) hnws2
    cases t with
    | nil =>
      constructor
      · intro h; simp [perCharMatchLen] at h
      · rintro ⟨hk, hfil, -, -⟩
        simp only [List.length_nil, Nat.le_zero] at hk
        subst hk
        simp at hfil
    | cons x ts =>
      by_cases hfe : foldEq cs x c = true
      · have hxw : isWs x = false := foldEq_not_ws cs x c hcw hfe
        have hfc : foldC cs x = foldC cs c := (foldEq_iff_foldC cs x c).mp hfe
        rw [show perCharMatchLen cs (c :: p2 :: ps) (x :: ts)
            = (perCharMatchLen cs (p2 :: ps) (ts.drop (wsRunLen ts))).map
                (fun k2 => 1 + wsRunLen ts + k2) by
          simp [perCharMatchLen, hfe]]
        have hWall : ∀ a ∈ ts.take (wsRunLen ts), isWs a = true :=
          mem_take_wsRun ts (wsRunLen ts) (Nat.le_refl _)
        have hfilW : (ts.take (wsRunLen ts)).filter (fun c => ! isWs c) = [] := by
          rw [List.filter_eq_nil_iff]
          intro a ha
          simp [hWall a ha]
        constructor
        · intro h
          obtain ⟨k2, hk2, hk⟩ := Option.map_eq_some'.mp h
          subst hk
          obtain ⟨hk2len, hfil2, hhead2, hlast2⟩ := ih (ts.drop (wsRunLen ts)) k2 |>.mp hk2
          have hS2ne : (ts.drop (wsRunLen ts)).take k2 ≠ [] := by
            intro h0
            rw [h0] at hfil2
            simp at hfil2
          refine ⟨?_, ?_, ?_, ?_⟩
          · simp only [List.length_cons]
            have h1 := wsRunLen_le ts
            simp only [List.length_drop] at hk2len
            omega
          · rw [show (1 : Nat) + wsRunLen ts + k2 = (wsRunLen ts + k2) + 1 by omega]
            rw [List.take_succ_cons, List.take_add]
            simp only [List.filter_cons, hxw, Bool.not_false, if_true,
              List.filter_append, hfilW, List.nil_append, List.map_cons]
            rw [hfil2]
            simp [hfc]
          · intro c' hc'
            rw [show (1 : Nat) + wsRunLen ts + k2 = (wsRunLen ts + k2) + 1 by omega] at hc'
            rw [List.take_succ_cons] at hc'
            simp at hc'
            subst hc'
            exact hxw
          · intro c' hc'
            rw [show (1 : Nat) + wsRunLen ts + k2 = (wsRunLen ts + k2) + 1 by omega] at hc'
            rw [List.take_succ_cons, List.take_add] at hc'
            rw [show x :: (ts.take (wsRunLen ts) ++ (ts.drop (wsRunLen ts)).take k2)
                = ([x] ++ ts.take (wsRunLen ts)) ++ (ts.drop (wsRunLen ts)).take k2 by
              simp] at hc'
            rw [List.getLast?_append] at hc'
            obtain ⟨y, hy⟩ := Option.isSome_iff_exists.mp
              (List.getLast?_isSome.mpr hS2ne)
            rw [hy] at hc'
            simp at hc'
            subst hc'
            exact hlast2 y hy
        · rintro ⟨hk, hfil, hhead, hlast⟩
          rcases k with _ | k'
          · simp at hfil
          · simp only [List.take_succ_cons] at hfil hhead hlast
            simp only [List.filter_cons, hxw, Bool.not_false, if_true,
              List.map_cons, List.cons.injEq] at hfil
            have hfilR := hfil.2
            have hRne : (ts.take k').filter (fun c => ! isWs c) ≠ [] := by
              intro h0
              rw [h0] at hfilR
              simp at hfilR
            have hwlt : wsRunLen ts < k' := by
              by_contra hge
              push_neg at hge
              apply hRne
              rw [List.filter_eq_nil_iff]
              intro a ha
              have := mem_take_wsRun ts k' hge a ha
              simp [this]
            have hts_len : k' ≤ ts.length := by
              simp only [List.length_cons] at hk
              omega
            have hsplit : ts.take k'
                = ts.take (wsRunLen ts) ++ (ts.drop (wsRunLen ts)).take (k' - wsRunLen ts) := by
              rw [← List.drop_take]
              rw [show ts.take (wsRunLen ts) = (ts.take k').take (wsRunLen ts) by
                rw [List.take_take, Nat.min_eq_left (by omega)]]
              rw [List.take_append_drop]
            have hS2len : 1 ≤ ((ts.drop (wsRunLen ts)).take (k' - wsRunLen ts)).length := by
              simp only [List.length_take, List.length_drop]
              omega
            have hS2ne : (ts.drop (wsRunLen ts)).take (k' - wsRunLen ts) ≠ [] := by
              intro h0
              rw [h0] at hS2len
              simp at hS2len
            have hfilS2 : (((ts.drop (wsRunLen ts)).take (k' - wsRunLen ts)).filter
                (fun c => ! isWs c)).map (foldC cs) = (p2 :: ps).map (foldC cs) := by
              rw [List.map_cons, ← hfilR, hsplit]
              simp [List.filter_append, hfilW]
            refine Option.map_eq_some'.mpr ⟨k' - wsRunLen ts, ?_, by omega⟩
            refine (ih (ts.drop (wsRunLen ts)) (k' - wsRunLen ts)).mpr ⟨?_, hfilS2, ?_, ?_⟩
            · simp only [List.length_drop]
              omega
            · intro c' hc'
              cases hdw : ts.drop (wsRunLen ts) with
              | nil =>
                rw [hdw] at hc'
                simp at hc'
              | cons y ys =>
                rw [hdw] at hc'
                rw [show k' - wsRunLen ts = (k' - wsRunLen ts - 1) + 1 by omega] at hc'
                rw [List.take_succ_cons] at hc'
                simp only [List.head?_cons, Option.some.injEq] at hc'
                have hy2 : (ts.dropWhile (isWs ·)).head? = some y := by
                  rw [← drop_length_takeWhile (isWs ·) ts]
                  rw [show (ts.takeWhile (isWs ·)).length = wsRunLen ts from rfl]
                  rw [hdw]
                  rfl
                rw [← hc']
                exact head?_dropWhile_false _ ts y hy2
            · intro c' hc'
              apply hlast
              rw [hsplit]
              rw [show x :: (ts.take (wsRunLen ts) ++ (ts.drop (wsRunLen ts)).take (k' - wsRunLen ts))
                  = ([x] ++ ts.take (wsRunLen ts)) ++ (ts.drop (wsRunLen ts)).take (k' - wsRunLen ts) by
                simp]
              rw [List.getLast?_append, hc']
              rfl
      · rw [show perCharMatchLen cs (c :: p2 :: ps) (x :: ts) = none by
          simp [perCharMatchLen, hfe]]
        constructor
        · intro h; simp at h
        · rintro ⟨hk, hfil, hhead, hlast⟩
          exfalso
          rcases k with _ | k'
          · simp at hfil
          · simp only [List.take_succ_cons] at hfil hhead
            have hxw : isWs x = false := hhead x (by simp)
            simp only [List.filter_cons, hxw, Bool.not_false, if_true,
              List.map_cons, List.cons.injEq] at hfil
            exact hfe ((foldEq_iff_foldC cs x c).mpr hfil.1)

/-- C6.  With flexible whitespace enabled and a whitespace-stripped query of
at most 200 characters, the compiled pattern is the per-character pattern
over the stripped query, and it matches a slice of the text exactly when
that slice is the stripped query's characters in order (under the case
fold) with zero or more whitespace characters tolerated between every pair
of consecutive characters (the slice starting and ending on the pattern's
characters); in particular on the page ["ab", "  cd"] (buffer "ab  cd") the
query "abcd" under default options yields exactly one match whose
`MatchRange`s span both runs. -/
theorem c6_flexible_whitespace (query : List Char) (opts : SearchOptions)
    (t : List Char) (k : Nat)
    (hfw : opts.flexibleWhitespace.getD true = true)
    (hne : (jsTrim query).filter (fun c => ! isWs c) ≠ [])
    (hlen : ((jsTrim query).filter (fun c => ! isWs c)).length ≤ 200) :
    buildFlexibleRegex query opts
      = some ⟨.perChar ((jsTrim query).filter (fun c => ! isWs c)),
              opts.caseSensitive.getD false⟩ ∧
    (perCharMatchLen (opts.caseSensitive.getD false)
        ((jsTrim query).filter (fun c => ! isWs c)) t = some k ↔
      flexSpec (opts.caseSensitive.getD false)
        ((jsTrim query).filter (fun c => ! isWs c)) t k) ∧
    searchPage [spanOf "ab", spanOf "  cd"] "abcd".toList {}
      = [[⟨0, 0, 2⟩, ⟨1, 0, 4⟩]] := by
  have htrim : jsTrim query ≠ [] := by
    intro h0
    rw [h0] at hne
    simp at hne
  have hnws : ∀ c ∈ (jsTrim query).filter (fun c => ! isWs c), isWs c = false := by
    intro c hc
    have := List.of_mem_filter hc
    simpa using this
  refine ⟨?_, perCharMatchLen_some_iff (opts.caseSensitive.getD false) _ hne hnws t k,
    by decide⟩
  unfold buildFlexibleRegex
  dsimp only
  rw [if_neg htrim, hfw]
  simp only [Bool.not_true, Bool.false_eq_true, if_false]
  rw [if_neg hne, if_neg (by omega)]

/-- C6 witness: the compiled pattern and match characterization at the
query "a b" (stripped to "ab") over the text "a  b". -/
theorem c6_flexible_whitespace_witness :
    (buildFlexibleRegex " a b ".toList {}
      = some ⟨.perChar ((jsTrim " a b ".toList).filter (fun c => ! isWs c)),
              ({} : SearchOptions).caseSensitive.getD false⟩) ∧
    (perCharMatchLen (({} : SearchOptions).caseSensitive.getD false)
        ((jsTrim " a b ".toList).filter (fun c => ! isWs c)) "a  b".toList
          = some 4 ↔
      flexSpec (({} : SearchOptions).caseSensitive.getD false)
        ((jsTrim " a b ".toList).filter (fun c => ! isWs c)) "a  b".toList 4) ∧
    searchPage [spanOf "ab", spanOf "  cd"] "abcd".toList {}
      = [[⟨0, 0, 2⟩, ⟨1, 0, 4⟩]] :=
  c6_flexible_whitespace " a b ".toList {} "a  b".toList 4
    (by decide) (by decide) (by decide)

theorem fuzzColsGo_getD (q : List Char) :
    ∀ (ts : List Char) (prev : List Nat) (i : Nat), i < ts.length →
      (fuzzColsGo q ts prev).getD i []
        = (ts.take (i + 1)).foldl (fun pr tc => nextCol tc q pr) prev
  | [], _, i, h => absurd h (by simp)
  | tc :: ts', prev, 0, _ => by
    simp [fuzzColsGo]
  | tc :: ts', prev, i + 1, h => by
    have h' : i < ts'.length := by simpa using h
    have ih := fuzzColsGo_getD q ts' (nextCol tc q prev) i h'
    simp only [fuzzColsGo, List.getD_cons_succ, List.take_succ_cons, List.foldl_cons]
    exact ih

theorem fuzzCols_getD (q t : List Char) (i : Nat) (h : i ≤ t.length) :
    (fuzzCols q t).getD i [] = colFun q (t.take i) := by
  cases i with
  | zero => simp [fuzzCols, colFun]
  | succ i =>
    have h' : i < t.length := by omega
    rw [show (fuzzCols q t).getD (i + 1) [] = (fuzzColsGo q t (colInit q.length)).getD i []
      from rfl]
    rw [fuzzColsGo_getD q t (colInit q.length) i h']
    rfl

theorem fuzzRowAux_length (tc : Char) :
    ∀ (qs : List Char) (prev : List Nat) (left : Nat), prev.length = qs.length + 1 →
      (fuzzRowAux tc qs prev left).length = qs.length
  | [], _, _, _ => rfl
  | qc :: qs', prev, left, h => by
    match prev, h with
    | p0 :: p1 :: rest, h =>
      simp only [fuzzRowAux, List.length_cons]
      rw [fuzzRowAux_length tc qs' (p1 :: rest) _ (by simpa using h)]

theorem nextCol_length (tc : Char) (q : List Char) (prev : List Nat)
    (h : prev.length = q.length + 1) : (nextCol tc q prev).length = q.length + 1 := by
  simp [nextCol, fuzzRowAux_length tc q prev 0 h]

theorem colFun_length (q : List Char) : ∀ (tp : List Char),
    (colFun q tp).length = q.length + 1 := by
  have hgen : ∀ (tp : List Char) (prev : List Nat), prev.length = q.length + 1 →
      (tp.foldl (fun pr tc => nextCol tc q pr) prev).length = q.length + 1 := by
    intro tp
    induction tp with
    | nil => intro prev h; exact h
    | cons tc ts ih =>
      intro prev h
      rw [List.foldl_cons]
      exact ih _ (nextCol_length tc q prev h)
  intro tp
  exact hgen tp _ (by simp [colInit])

theorem fuzzRowAux_getD (tc : Char) :
    ∀ (qs : List Char) (prev : List Nat) (left : Nat) (j : Nat),
      prev.length = qs.length + 1 → j < qs.length →
      (fuzzRowAux tc qs prev left).getD j 0
        = min (prev.getD (j + 1) 0 + 1)
            (min ((left :: fuzzRowAux tc qs prev left).getD j 0 + 1)
              (prev.getD j 0 + (if tc = qs.getD j (Char.ofNat 0) then 0 else 1)))
  | [], _, _, j, _, hj => absurd hj (by simp)
  | qc :: qs', prev, left, j, h, hj => by
    match prev, h with
    | p0 :: p1 :: rest, h =>
      cases j with
      | zero => simp [fuzzRowAux]
      | succ j =>
        have h' : (p1 :: rest).length = qs'.length + 1 := by simpa using h
        have hj' : j < qs'.length := by simpa using hj
        have ih := fuzzRowAux_getD tc qs' (p1 :: rest)
          (min (p1 + 1) (min (left + 1) (p0 + if tc = qc then 0 else 1))) j h' hj'
        simp only [fuzzRowAux, List.getD_cons_succ, List.getD_cons_zero] at ih ⊢
        exact ih

theorem nextCol_getD_succ (tc : Char) (q : List Char) (prev : List Nat) (j : Nat)
    (h : prev.length = q.length + 1) (hj : j < q.length) :
    (nextCol tc q prev).getD (j + 1) 0
      = min (prev.getD (j + 1) 0 + 1)
          (min ((nextCol tc q prev).getD j 0 + 1)
            (prev.getD j 0 + (if tc = q.getD j (Char.ofNat 0) then 0 else 1))) := by
  have := fuzzRowAux_getD tc q prev 0 j h hj
  simpa [nextCol] using this

theorem colFun_getD_zero (q : List Char) (tp : List Char) :
    (colFun q tp).getD 0 0 = 0 := by
  induction tp using List.reverseRecOn with
  | nil => simp [colFun, colInit]
  | append_singleton tp c _ =>
    simp [colFun, List.foldl_append, nextCol]

theorem colFun_eq_Efun (q : List Char) :
    ∀ (rp : List Char) (j : Nat), j ≤ q.length →
      (colFun q rp.reverse).getD j 0 = Efun q rp j
  | [], j, hj => by
    simp only [List.reverse_nil, colFun, List.foldl_nil, Efun, colInit]
    simp [List.getD_eq_getElem?_getD, List.getElem?_range, Nat.lt_succ_of_le hj]
  | c :: rp, 0, _ => by
    rw [colFun_getD_zero]
    rw [Efun]
  | c :: rp, j + 1, hj => by
    have hrev : (c :: rp).reverse = rp.reverse ++ [c] := by simp
    have hstep : colFun q ((c :: rp).reverse) = nextCol c q (colFun q rp.reverse) := by
      rw [hrev]
      simp [colFun, List.foldl_append]
    rw [hstep, nextCol_getD_succ c q _ j (colFun_length q _) (by omega)]
    rw [colFun_eq_Efun q rp (j + 1) hj]
    rw [colFun_eq_Efun q rp j (by omega)]
    rw [← hstep]
    rw [show colFun q ((c :: rp).reverse) = colFun q ((c :: rp).reverse) from rfl]
    rw [colFun_eq_Efun q (c :: rp) j (by omega)]
    rw [Efun]
termination_by rp j => (rp.length, j)
decreasing_by
  all_goals simp [Prod.lex_iff]

theorem Efun_eq_zero_iff (q : List Char) :
    ∀ (rp : List Char) (j : Nat), j ≤ q.length →
      (Efun q rp j = 0 ↔ rp.take j = (q.take j).reverse)
  | rp, 0, _ => by cases rp <;> simp [Efun]
  | [], j + 1, hj => by
    simp only [Efun, List.take_nil]
    constructor
    · intro h; omega
    · intro h
      have hl := congrArg List.length h
      simp [List.length_take] at hl
      omega
  | c :: rp, j + 1, hj => by
    have hjq : j < q.length := by omega
    have hiff : (min (Efun q rp (j + 1) + 1)
        (min (Efun q (c :: rp) j + 1)
          (Efun q rp j + (if c = q.getD j (Char.ofNat 0) then 0 else 1))) = 0)
        ↔ (Efun q rp j = 0 ∧ c = q.getD j (Char.ofNat 0)) := by
      by_cases hc : c = q.getD j (Char.ofNat 0) <;> simp [hc] <;> omega
    rw [show Efun q (c :: rp) (j + 1) = min (Efun q rp (j + 1) + 1)
        (min (Efun q (c :: rp) j + 1)
          (Efun q rp j + (if c = q.getD j (Char.ofNat 0) then 0 else 1))) from by rw [Efun]]
    rw [hiff, Efun_eq_zero_iff q rp j (by omega)]
    have hqtake : q.take (j + 1) = q.take j ++ [q.getD j (Char.ofNat 0)] := by
      rw [List.take_succ, List.getElem?_eq_getElem hjq,
        List.getD_eq_getElem q (Char.ofNat 0) hjq]
      rfl
    rw [hqtake, List.reverse_append, List.take_succ_cons]
    simp only [List.reverse_cons, List.reverse_nil, List.nil_append, List.singleton_append]
    constructor
    · rintro ⟨h1, h2⟩
      rw [h1, h2]
    · intro h
      rw [List.cons_eq_cons] at h
      exact ⟨h.2, h.1⟩
termination_by rp j => (rp.length, j)
decreasing_by
  all_goals simp [Prod.lex_iff]

theorem occ_flip (t q : List Char) (pos : Nat) (h : pos + q.length ≤ t.length) :
    ((t.take (pos + q.length)).reverse.take q.length = q.reverse)
      ↔ (t.drop pos).take q.length = q := by
  have hlen : (t.take (pos + q.length)).length = pos + q.length := by
    simp [List.length_take]
    omega
  rw [List.take_reverse, hlen,
    show pos + q.length - q.length = pos from by omega,
    List.drop_take,
    show pos + q.length - pos = q.length from by omega]
  exact List.reverse_inj

theorem occ_len_le (t q : List Char) (e : Nat) (he : e ≤ t.length)
    (h : (t.take e).reverse.take q.length = q.reverse) : q.length ≤ e := by
  have hl := congrArg List.length h
  simp [List.length_take, List.length_reverse] at hl
  omega

theorem fuzzCell_eq_Efun (q t : List Char) (i j : Nat) (hi : i ≤ t.length)
    (hj : j ≤ q.length) :
    ((fuzzCols q t).getD i []).getD j 0 = Efun q ((t.take i).reverse) j := by
  rw [fuzzCols_getD q t i hi]
  have h := colFun_eq_Efun q ((t.take i).reverse) j hj
  rwa [List.reverse_reverse] at h

theorem take_succ_getD (t : List Char) (i : Nat) (hi : i < t.length) :
    t.take (i + 1) = t.take i ++ [t.getD i (Char.ofNat 0)] := by
  rw [List.take_succ, List.getElem?_eq_getElem hi,
    List.getD_eq_getElem t (Char.ofNat 0) hi]
  rfl

theorem tracebackGo_zero (t q : List Char) :
    ∀ (j fuel i : Nat), j ≤ fuel → j ≤ i → j ≤ q.length → i ≤ t.length →
      (t.take i).reverse.take j = (q.take j).reverse →
      tracebackGo t q (fuzzCols q t) fuel i j = i - j
  | 0, fuel, i, _, _, _, _, _ => by
    cases fuel <;> simp [tracebackGo]
  | j + 1, fuel, i, hf, hij, hjq, hit, hsuf => by
    obtain ⟨f, rfl⟩ : ∃ f, fuel = f + 1 := ⟨fuel - 1, by omega⟩
    obtain ⟨i0, rfl⟩ : ∃ i0, i = i0 + 1 := ⟨i - 1, by omega⟩
    have hi0 : i0 < t.length := by omega
    have hjq' : j < q.length := by omega
    rw [take_succ_getD t i0 hi0, take_succ_getD q j hjq', List.reverse_append,
      List.reverse_append] at hsuf
    simp only [List.reverse_cons, List.reverse_nil, List.nil_append,
      List.singleton_append, List.take_succ_cons, List.cons_eq_cons] at hsuf
    obtain ⟨hc, hsuf'⟩ := hsuf
    have hcell1 : ((fuzzCols q t).getD (i0 + 1) []).getD (j + 1) 0 = 0 := by
      rw [fuzzCell_eq_Efun q t (i0 + 1) (j + 1) (by omega) hjq]
      rw [Efun_eq_zero_iff q ((t.take (i0 + 1)).reverse) (j + 1) hjq]
      rw [take_succ_getD t i0 hi0, take_succ_getD q j hjq', List.reverse_append,
        List.reverse_append]
      simp only [List.reverse_cons, List.reverse_nil, List.nil_append,
        List.singleton_append, List.take_succ_cons, List.cons_eq_cons]
      exact ⟨hc, hsuf'⟩
    have hcell2 : ((fuzzCols q t).getD i0 []).getD j 0 = 0 := by
      rw [fuzzCell_eq_Efun q t i0 j (by omega) (by omega)]
      rw [Efun_eq_zero_iff q ((t.take i0).reverse) j (by omega)]
      exact hsuf'
    rw [tracebackGo]
    rw [if_pos (show 0 < i0 + 1 ∧ 0 < j + 1 from by omega)]
    dsimp only
    simp only [Nat.add_sub_cancel]
    rw [hcell1, hcell2, if_pos hc, if_pos (show (0 : Nat) = 0 + 0 from rfl)]
    rw [tracebackGo_zero t q j f i0 (by omega) (by omega) (by omega) (by omega) hsuf']
    omega

theorem filterMap_range_split {β : Type} (F : Nat → Option β) (k N : Nat) (hk : k ≤ N)
    (h : ∀ e, e < k → F e = none) :
    (List.range N).filterMap F = (List.range' k (N - k)).filterMap F := by
  have hsplit : List.range' 0 k 1 ++ List.range' k (N - k) 1 = List.range' 0 N 1 := by
    have happ := List.range'_append 0 k (N - k) 1
    rw [show 0 + 1 * k = k from by omega] at happ
    rw [show N - k + k = N from by omega] at happ
    exact happ
  rw [List.range_eq_range', ← hsplit, List.filterMap_append]
  have hnil : (List.range' 0 k 1).filterMap F = [] := by
    rw [List.filterMap_eq_nil_iff]
    intro e he
    rw [List.mem_range'_1] at he
    exact h e (by omega)
  rw [hnil, List.nil_append]

theorem occFrom_nil (t q : List Char) (p : Nat) (hq : q.length ≠ 0)
    (h : t.length ≤ p) : occFrom t q p = [] := by
  rw [occFrom, List.filterMap_eq_nil_iff]
  intro e he
  rw [List.mem_range] at he
  rw [if_neg]
  rintro ⟨h1, -⟩
  omega

theorem occFrom_start_le (t q : List Char) (p : Nat) :
    ∀ b ∈ occFrom t q p, p ≤ b.start := by
  intro b hb
  rw [occFrom, List.mem_filterMap] at hb
  obtain ⟨e, _, hfe⟩ := hb
  by_cases h : p + q.length ≤ e ∧ (t.take e).reverse.take q.length = q.reverse
  · rw [if_pos h] at hfe
    rw [Option.some_inj] at hfe
    rw [← hfe]
    have := h.1
    dsimp only
    omega
  · rw [if_neg h] at hfe
    exact absurd hfe (by simp)

theorem occFrom_step (t q : List Char) (p : Nat) :
    occFrom t q p
      = (if p + q.length ≤ t.length ∧ (t.drop p).take q.length = q then
           [(⟨p, p + q.length, 0⟩ : FuzzyMatch)] else [])
        ++ occFrom t q (p + 1) := by
  by_cases hpn : p + q.length ≤ t.length
  · have hnone : ∀ e, e < p + q.length →
        (if p + q.length ≤ e ∧ (t.take e).reverse.take q.length = q.reverse then
          some (⟨e - q.length, e, 0⟩ : FuzzyMatch) else none) = none := by
      intro e he
      rw [if_neg]
      rintro ⟨h1, -⟩
      omega
    have hnone' : ∀ e, e < p + 1 + q.length →
        (if p + 1 + q.length ≤ e ∧ (t.take e).reverse.take q.length = q.reverse then
          some (⟨e - q.length, e, 0⟩ : FuzzyMatch) else none) = none := by
      intro e he
      rw [if_neg]
      rintro ⟨h1, -⟩
      omega
    rw [occFrom, filterMap_range_split _ (p + q.length) (t.length + 1) (by omega) hnone]
    rw [show t.length + 1 - (p + q.length) = (t.length - (p + q.length)) + 1 from by omega]
    rw [List.range'_succ]
    rw [show occFrom t q (p + 1)
        = (List.range' (p + 1 + q.length) (t.length + 1 - (p + 1 + q.length))).filterMap
          (fun e => if p + 1 + q.length ≤ e ∧ (t.take e).reverse.take q.length = q.reverse
            then some (⟨e - q.length, e, 0⟩ : FuzzyMatch) else none) from by
      rw [occFrom, filterMap_range_split _ (p + 1 + q.length) (t.length + 1) (by omega) hnone']]
    rw [show t.length + 1 - (p + 1 + q.length) = t.length - (p + q.length) from by omega]
    rw [show p + q.length + 1 = p + 1 + q.length from by omega]
    have htail : (List.range' (p + 1 + q.length) (t.length - (p + q.length))).filterMap
          (fun e => if p + q.length ≤ e ∧ (t.take e).reverse.take q.length = q.reverse
            then some (⟨e - q.length, e, 0⟩ : FuzzyMatch) else none)
        = (List.range' (p + 1 + q.length) (t.length - (p + q.length))).filterMap
          (fun e => if p + 1 + q.length ≤ e ∧ (t.take e).reverse.take q.length = q.reverse
            then some (⟨e - q.length, e, 0⟩ : FuzzyMatch) else none) := by
      refine List.filterMap_congr ?_
      intro e he
      rw [List.mem_range'_1] at he
      by_cases hs : (t.take e).reverse.take q.length = q.reverse
      · rw [if_pos ⟨by omega, hs⟩, if_pos ⟨by omega, hs⟩]
      · rw [if_neg (by rintro ⟨-, h2⟩; exact hs h2),
          if_neg (by rintro ⟨-, h2⟩; exact hs h2)]
    by_cases hocc : (t.drop p).take q.length = q
    · have hhead : (fun e => if p + q.length ≤ e ∧ (t.take e).reverse.take q.length = q.reverse
            then some (⟨e - q.length, e, 0⟩ : FuzzyMatch) else none) (p + q.length)
          = some (⟨p, p + q.length, 0⟩ : FuzzyMatch) := by
        show (if p + q.length ≤ p + q.length ∧
            (t.take (p + q.length)).reverse.take q.length = q.reverse then
            some (⟨p + q.length - q.length, p + q.length, 0⟩ : FuzzyMatch) else none)
          = some (⟨p, p + q.length, 0⟩ : FuzzyMatch)
        rw [if_pos ⟨le_refl _, (occ_flip t q p hpn).mpr hocc⟩,
          show p + q.length - q.length = p from by omega]
      rw [@List.filterMap_cons_some Nat FuzzyMatch
        (fun e => if p + q.length ≤ e ∧ (t.take e).reverse.take q.length = q.reverse
          then some (⟨e - q.length, e, 0⟩ : FuzzyMatch) else none)
        (p + q.length)
        (List.range' (p + 1 + q.length) (t.length - (p + q.length)))
        ⟨p, p + q.length, 0⟩ hhead,
        htail, if_pos ⟨hpn, hocc⟩, List.singleton_append]
    · have hhead : (fun e => if p + q.length ≤ e ∧ (t.take e).reverse.take q.length = q.reverse
            then some (⟨e - q.length, e, 0⟩ : FuzzyMatch) else none) (p + q.length)
          = none := by
        show (if p + q.length ≤ p + q.length ∧
            (t.take (p + q.length)).reverse.take q.length = q.reverse then
            some (⟨p + q.length - q.length, p + q.length, 0⟩ : FuzzyMatch) else none)
          = none
        rw [if_neg]
        rintro ⟨-, h2⟩
        exact hocc ((occ_flip t q p hpn).mp h2)
      rw [@List.filterMap_cons_none Nat FuzzyMatch
        (fun e => if p + q.length ≤ e ∧ (t.take e).reverse.take q.length = q.reverse
          then some (⟨e - q.length, e, 0⟩ : FuzzyMatch) else none)
        (p + q.length)
        (List.range' (p + 1 + q.length) (t.length - (p + q.length))) hhead,
        htail, if_neg (fun hand => hocc hand.2), List.nil_append]
  · rw [if_neg (by rintro ⟨h1, -⟩; exact hpn h1), List.nil_append]
    have h1 : occFrom t q p = [] := by
      rw [occFrom, List.filterMap_eq_nil_iff]
      intro e he
      rw [List.mem_range] at he
      rw [if_neg]
      rintro ⟨hle, -⟩
      omega
    have h2 : occFrom t q (p + 1) = [] := by
      rw [occFrom, List.filterMap_eq_nil_iff]
      intro e he
      rw [List.mem_range] at he
      rw [if_neg]
      rintro ⟨hle, -⟩
      omega
    rw [h1, h2]

theorem occFrom_pairwise (t q : List Char) (p : Nat) :
    List.Pairwise fuzzyLe (occFrom t q p) := by
  rw [occFrom, List.pairwise_filterMap]
  refine List.Pairwise.imp ?_ (List.pairwise_lt_range (t.length + 1))
  intro e1 e2 hlt b hb b' hb'
  by_cases h1 : p + q.length ≤ e1 ∧ (t.take e1).reverse.take q.length = q.reverse
  · rw [if_pos h1, Option.mem_def, Option.some_inj] at hb
    by_cases h2 : p + q.length ≤ e2 ∧ (t.take e2).reverse.take q.length = q.reverse
    · rw [if_pos h2, Option.mem_def, Option.some_inj] at hb'
      subst hb
      subst hb'
      left
      dsimp only
      have := h1.1
      have := h2.1
      omega
    · rw [if_neg h2] at hb'
      exact absurd hb' (by simp)
  · rw [if_neg h1] at hb
    exact absurd hb (by simp)

theorem mergeOvAux_occFrom (t q : List Char) (pos s : Nat) :
    ∀ (d k : Nat), k + d = q.length → 0 < k →
      mergeOvAux ⟨s, pos + q.length, 0⟩ (occFrom t q (pos + k))
        = ⟨s, pos + q.length, 0⟩ :: mergeOv (occFrom t q (pos + q.length))
  | 0, k, hk, _ => by
    have hkm : k = q.length := by omega
    rw [hkm]
    cases hocc : occFrom t q (pos + q.length) with
    | nil =>
      rw [mergeOvAux, mergeOv]
    | cons b l =>
      have hble : pos + q.length ≤ b.start :=
        occFrom_start_le t q (pos + q.length) b (hocc ▸ List.mem_cons_self b l)
      rw [mergeOvAux]
      rw [if_neg (show ¬ b.start < (⟨s, pos + q.length, 0⟩ : FuzzyMatch).stop from by
        dsimp only
        omega)]
      rw [mergeOv]
  | d + 1, k, hk, hk0 => by
    have hklt : k < q.length := by omega
    rw [occFrom_step t q (pos + k)]
    by_cases hc : pos + k + q.length ≤ t.length ∧ ((t.drop (pos + k)).take q.length = q)
    · rw [if_pos hc, List.singleton_append, mergeOvAux]
      rw [if_pos (show (⟨pos + k, pos + k + q.length, 0⟩ : FuzzyMatch).start
          < (⟨s, pos + q.length, 0⟩ : FuzzyMatch).stop from by
        dsimp only
        omega)]
      rw [if_neg (show ¬ (⟨pos + k, pos + k + q.length, 0⟩ : FuzzyMatch).distance
          < (⟨s, pos + q.length, 0⟩ : FuzzyMatch).distance from by
        dsimp only
        omega)]
      rw [show pos + k + 1 = pos + (k + 1) from by omega]
      exact mergeOvAux_occFrom t q pos s d (k + 1) (by omega) (by omega)
    · rw [if_neg hc, List.nil_append]
      rw [show pos + k + 1 = pos + (k + 1) from by omega]
      exact mergeOvAux_occFrom t q pos s d (k + 1) (by omega) (by omega)

theorem mergeOv_occFrom_exact (t q : List Char) (hq : q ≠ []) :
    ∀ (fuel pos : Nat), t.length + 1 - pos ≤ fuel →
      mergeOv (occFrom t q pos) = exactScanGo t q fuel pos
  | 0, pos, hfuel => by
    have hm : q.length ≠ 0 := fun h => hq (List.length_eq_zero.mp h)
    rw [occFrom_nil t q pos hm (by omega), exactScanGo, mergeOv]
  | fuel + 1, pos, hfuel => by
    have hm : q.length ≠ 0 := fun h => hq (List.length_eq_zero.mp h)
    rw [exactScanGo, if_neg hq]
    by_cases hpos : pos < t.length
    · rw [if_pos hpos]
      by_cases hmatch : (t.drop pos).take q.length = q
      · rw [if_pos hmatch]
        have hpmn : pos + q.length ≤ t.length := by
          have hl := congrArg List.length hmatch
          simp [List.length_take, List.length_drop] at hl
          omega
        rw [occFrom_step, if_pos ⟨hpmn, hmatch⟩, List.singleton_append, mergeOv]
        rw [show pos + 1 = pos + 1 from rfl]
        rw [mergeOvAux_occFrom t q pos pos (q.length - 1) 1 (by omega) (by omega)]
        rw [mergeOv_occFrom_exact t q hq fuel (pos + q.length) (by omega)]
      · rw [if_neg hmatch]
        rw [occFrom_step, if_neg (fun hand => hmatch hand.2), List.nil_append]
        exact mergeOv_occFrom_exact t q hq fuel (pos + 1) (by omega)
    · rw [if_neg hpos]
      rw [occFrom_nil t q pos hm (by omega), mergeOv]

theorem raw_eq_occFrom (t q : List Char) (hm : q.length ≠ 0) :
    rawOfEnds t q (endsZero t q) = occFrom t q 0 := by
  simp only [rawOfEnds, endsZero]
  rw [List.map_filterMap]
  rw [occFrom, List.range_succ_eq_map]
  rw [@List.filterMap_cons_none Nat FuzzyMatch
    (fun e => if 0 + q.length ≤ e ∧ (t.take e).reverse.take q.length = q.reverse
      then some (⟨e - q.length, e, 0⟩ : FuzzyMatch) else none) 0
    (List.map Nat.succ (List.range t.length))
    (by
      show (if 0 + q.length ≤ 0 ∧ (t.take 0).reverse.take q.length = q.reverse
        then some (⟨0 - q.length, 0, 0⟩ : FuzzyMatch) else none) = none
      rw [if_neg]
      rintro ⟨h1, -⟩
      omega)]
  rw [List.filterMap_map]
  refine List.filterMap_congr ?_
  intro i0 hi0
  rw [List.mem_range] at hi0
  dsimp only [Function.comp]
  simp only [Nat.succ_eq_add_one]
  have hcell := fuzzCell_eq_Efun q t (i0 + 1) q.length (by omega) (le_refl q.length)
  by_cases hs : (t.take (i0 + 1)).reverse.take q.length = q.reverse
  · have hmle : q.length ≤ i0 + 1 := occ_len_le t q (i0 + 1) (by omega) hs
    have hd : ((fuzzCols q t).getD (i0 + 1) []).getD q.length 0 = 0 := by
      rw [hcell, Efun_eq_zero_iff q ((t.take (i0 + 1)).reverse) q.length (le_refl q.length),
        List.take_length]
      exact hs
    have htb : traceback t q (fuzzCols q t) (i0 + 1) q.length = i0 + 1 - q.length := by
      rw [traceback]
      exact tracebackGo_zero t q q.length (i0 + 1 + q.length) (i0 + 1) (by omega) hmle
        (le_refl q.length) (by omega) (by rw [List.take_length]; exact hs)
    rw [hd]
    rw [if_pos (show (((0 : Nat) : Int)) ≤ (0 : Int) from by simp)]
    rw [if_pos (show 0 + q.length ≤ i0 + 1 ∧
        (t.take (i0 + 1)).reverse.take q.length = q.reverse from ⟨by omega, hs⟩)]
    show some (⟨traceback t q (fuzzCols q t) (i0 + 1) q.length, i0 + 1, 0⟩ : FuzzyMatch) = _
    rw [htb]
  · have hd : ¬ ((((fuzzCols q t).getD (i0 + 1) []).getD q.length 0 : Int)) ≤ (0 : Int) := by
      intro hle
      have h0 : ((fuzzCols q t).getD (i0 + 1) []).getD q.length 0 = 0 := by omega
      rw [hcell, Efun_eq_zero_iff q ((t.take (i0 + 1)).reverse) q.length (le_refl q.length),
        List.take_length] at h0
      exact hs h0
    rw [if_neg hd, if_neg (fun hand => hs hand.2)]
    rfl

theorem fuzzySearchText_zero_eq (t q : List Char) (hm : q.length ≠ 0) (hn : t.length ≠ 0) :
    fuzzySearchText t q 0
      = (if endsZero t q = [] then ([] : List FuzzyMatch)
         else mergeOv (List.insertionSort fuzzyLe (rawOfEnds t q (endsZero t q)))) := by
  simp only [fuzzySearchText]
  rw [if_neg hm, if_neg hn]
  rfl

theorem fuzzySearchText_zero_exact (t q : List Char) (hq : q ≠ []) :
    fuzzySearchText t q 0 = exactScan t q := by
  have hm : q.length ≠ 0 := fun h => hq (List.length_eq_zero.mp h)
  by_cases ht : t.length = 0
  · have hte : t = [] := List.length_eq_zero.mp ht
    subst hte
    rw [show fuzzySearchText [] q 0 = [] from by
      simp only [fuzzySearchText]
      rw [if_neg hm, if_pos (show ([] : List Char).length = 0 from rfl)]]
    simp only [exactScan, exactScanFrom]
    show ([] : List FuzzyMatch) = exactScanGo [] q 1 0
    rw [exactScanGo, if_neg hq, if_neg (by simp)]
  · rw [fuzzySearchText_zero_eq t q hm ht]
    by_cases hE : endsZero t q = []
    · rw [if_pos hE]
      have hoccnil : occFrom t q 0 = [] := by
        rw [← raw_eq_occFrom t q hm, hE]
        rfl
      simp only [exactScan, exactScanFrom]
      rw [← mergeOv_occFrom_exact t q hq (t.length + 1 - 0) 0 (le_refl _)]
      rw [hoccnil, mergeOv]
    · rw [if_neg hE, raw_eq_occFrom t q hm]
      rw [List.Sorted.insertionSort_eq (occFrom_pairwise t q 0)]
      simp only [exactScan, exactScanFrom]
      exact mergeOv_occFrom_exact t q hq (t.length + 1 - 0) 0 (le_refl _)

/-- C4.  The fuzzy error budget is `maxErrors = ⌊len·(1 − threshold)⌋` of the
stripped query (first conjunct, every input); for the query "hello" at the
default threshold 0.6 the budget passed to the matcher is exactly 2 (second
conjunct), so a buffer containing "hallo" (distance 1) yields a match while a
buffer containing only "hxyyo" (distance 3) yields none (third and fourth
conjuncts); and with `fuzzyThreshold = 1.0` the budget is 0 and the fuzzy
search returns exactly the exact-substring occurrences of the stripped query
collected by the left-to-right non-overlapping scan (fifth conjunct). -/
theorem c4_fuzzy_error_budget :
    (∀ (spans : List SpanData) (q : List Char) (opts : SearchOptions),
      fuzzySearchPage spans q opts =
        (fuzzySearchText
            (if opts.caseSensitive.getD false then (buildTextAndCharMap spans).1
             else (buildTextAndCharMap spans).1.map Char.toLower)
            ((if opts.caseSensitive.getD false then q else q.map Char.toLower).filter
              (fun c => ! isWs c))
            ⌊(((if opts.caseSensitive.getD false then q
                 else q.map Char.toLower).filter (fun c => ! isWs c)).length : ℚ)
                * (1 - opts.fuzzyThreshold.getD (6 / 10 : ℚ))⌋).map
          (fun m => mapToSpanRanges m.start m.stop (buildTextAndCharMap spans).2)) ∧
    (∀ spans : List SpanData,
      fuzzySearchPage spans "hello".toList { fuzzy := some true } =
        (fuzzySearchText ((buildTextAndCharMap spans).1.map Char.toLower)
            "hello".toList 2).map
          (fun m => mapToSpanRanges m.start m.stop (buildTextAndCharMap spans).2)) ∧
    fuzzySearchPage [spanOf "say hallo now"] "hello".toList { fuzzy := some true }
      = [[⟨0, 4, 9⟩]] ∧
    fuzzySearchPage [spanOf "hxyyo"] "hello".toList { fuzzy := some true } = [] ∧
    (∀ (spans : List SpanData) (q : List Char) (opts : SearchOptions),
      opts.fuzzyThreshold = some 1 →
      ((if opts.caseSensitive.getD false then q else q.map Char.toLower).filter
        (fun c => ! isWs c)) ≠ [] →
      fuzzySearchPage spans q opts =
        (exactScan
            (if opts.caseSensitive.getD false then (buildTextAndCharMap spans).1
             else (buildTextAndCharMap spans).1.map Char.toLower)
            ((if opts.caseSensitive.getD false then q else q.map Char.toLower).filter
              (fun c => ! isWs c))).map
          (fun m => mapToSpanRanges m.start m.stop (buildTextAndCharMap spans).2)) := by
  have hq5 : ((if ({ fuzzy := some true } : SearchOptions).caseSensitive.getD false
      then "hello".toList
      else "hello".toList.map Char.toLower).filter (fun c => ! isWs c))
      = "hello".toList := by decide
  have hf2 : (⌊(("hello".toList : List Char).length : ℚ)
      * (1 - ({ fuzzy := some true } : SearchOptions).fuzzyThreshold.getD (6 / 10 : ℚ))⌋
        : Int) = 2 := by
    norm_num [Option.getD]
  have hc : ¬ (({ fuzzy := some true } : SearchOptions).caseSensitive.getD false = true) := by
    decide
  refine ⟨fuzzySearchPage_eq, ?_, ?_, ?_, ?_⟩
  · intro spans
    rw [fuzzySearchPage_eq, hq5, hf2, if_neg hc]
  · rw [fuzzySearchPage_eq, hq5, hf2]
    decide
  · rw [fuzzySearchPage_eq, hq5, hf2]
    decide
  · intro spans q opts hthr hsq
    rw [fuzzySearchPage_eq]
    rw [show (⌊(((if opts.caseSensitive.getD false then q
         else q.map Char.toLower).filter (fun c => ! isWs c)).length : ℚ)
           * (1 - opts.fuzzyThreshold.getD (6 / 10 : ℚ))⌋ : Int) = 0 from by
      rw [hthr]
      simp]
    rw [fuzzySearchText_zero_exact _ _ hsq]

/-- Witness for C4: at threshold 1.0 on the single-span page "abc" with query
"b", the hypotheses hold and the fuzzy search equals the mapped exact scan. -/
theorem c4_fuzzy_error_budget_witness :
    ({ fuzzy := some true, fuzzyThreshold := some 1 } : SearchOptions).fuzzyThreshold
      = some 1 ∧
    fuzzySearchPage [spanOf "abc"] ['b'] { fuzzy := some true, fuzzyThreshold := some 1 }
      = (exactScan
          (if ({ fuzzy := some true, fuzzyThreshold := some 1 }
              : SearchOptions).caseSensitive.getD false
           then (buildTextAndCharMap [spanOf "abc"]).1
           else (buildTextAndCharMap [spanOf "abc"]).1.map Char.toLower)
          ((if ({ fuzzy := some true, fuzzyThreshold := some 1 }
              : SearchOptions).caseSensitive.getD false
            then (['b'] : List Char) else (['b'] : List Char).map Char.toLower).filter
            (fun c => ! isWs c))).map
        (fun m => mapToSpanRanges m.start m.stop (buildTextAndCharMap [spanOf "abc"]).2) :=
  ⟨rfl, c4_fuzzy_error_budget.2.2.2.2 [spanOf "abc"] ['b']
    { fuzzy := some true, fuzzyThreshold := some 1 } rfl (by decide)⟩

end PSH
